import Mathlib

/-!
Shallow embedding of the gomoku-cpp23 engine core, translated from the C++
sources (`src/board.hpp`, `src/gomoku.cpp`, `src/game.cpp`, `src/ai.cpp`,
`src/ai_parallel.cpp`).  Machine integers are modelled as `Int`/`Nat` (the
only wrap-relevant operation in the modelled code is the 64-bit XOR used for
Zobrist hashing, which is width-independent).  The monotone wall clock used
for search timeouts is modelled by a counter of timeout checks together with
a deadline index: `is_search_timed_out` reports whether the counter has
reached the deadline and advances the counter, which is faithful to any
monotone clock.  C's `rand()` is modelled as an explicit stream of numbers.

The file is organised as definitions first (the embedding), then theorems.
-/

namespace Gomoku

/-- Cell contents / player, from `enum class Player` in gomoku.hpp
(Empty = 0, Cross = 1, Naught = -1). -/
inductive Player where
  | empty
  | cross
  | naught
deriving DecidableEq, Repr

/-- From `other_player` in gomoku.hpp. -/
def other_player (p : Player) : Player :=
  if p = Player.cross then Player.naught else Player.cross

/-- From `struct Position` in gomoku.hpp. -/
structure Position where
  x : Int
  y : Int
deriving DecidableEq, Repr

/-- Componentwise addition, from `Position::operator+`. -/
def Position.add (p q : Position) : Position := ⟨p.x + q.x, p.y + q.y⟩

/-- Scaling by an integer factor, from `Position::operator*`. -/
def Position.scale (p : Position) (k : Int) : Position := ⟨p.x * k, p.y * k⟩

/-- From `Position::is_valid`. -/
def Position.is_valid (p : Position) (size : Nat) : Bool :=
  0 ≤ p.x && 0 ≤ p.y && p.x < (size : Int) && p.y < (size : Int)

/-- The four scan directions, from `DIRECTIONS` in gomoku.hpp. -/
def DIRECTIONS : List Position := [⟨1, 0⟩, ⟨0, 1⟩, ⟨1, 1⟩, ⟨1, -1⟩]

/-- `NEED_TO_WIN` from gomoku.hpp. -/
def NEED_TO_WIN : Nat := 5

/-- `WIN_SCORE` from gomoku.hpp. -/
def WIN_SCORE : Int := 1000000

/-- `LOSE_SCORE` from gomoku.hpp. -/
def LOSE_SCORE : Int := -1000000

/-- The board contents of `Board<Size>` (board.hpp), modelled as a lookup
function from positions to cells; out-of-range reads never occur in the
modelled code because every access is bounds-guarded. -/
def CBoard : Type := Position → Player

/-- One direction of the counting loop in `Board::count_line`: starting at
offset `i` from `start` along `dir`, count consecutive `player` stones while
in bounds, for at most `fuel` steps (the C++ loop runs `i = 1 .. NEED_TO_WIN-1`). -/
def rayCount (b : CBoard) (size : Nat) (start dir : Position) (player : Player) :
    Nat → Int → Nat
  | 0, _ => 0
  | fuel + 1, i =>
      let pos := start.add (dir.scale i)
      if pos.is_valid size ∧ b pos = player then
        1 + rayCount b size start dir player fuel (i + 1)
      else 0

/-- From `Board::count_line` (board.hpp): stones counted backwards, at the
start cell, and forwards. -/
def count_line (b : CBoard) (size : Nat) (start dir : Position) (player : Player) : Nat :=
  rayCount b size start ⟨-dir.x, -dir.y⟩ player (NEED_TO_WIN - 1) 1
    + (if b start = player then 1 else 0)
    + rayCount b size start dir player (NEED_TO_WIN - 1) 1

/-- From `Board::check_win_from_position`. -/
def check_win_from_position (b : CBoard) (size : Nat) (pos : Position) (player : Player) : Bool :=
  DIRECTIONS.any fun dir => NEED_TO_WIN ≤ count_line b size pos dir player

/-- From `Board::has_winner`: scan every cell of the player and test the four
directions through it. -/
def has_winner (b : CBoard) (size : Nat) (player : Player) : Bool :=
  (List.range size).any fun (x : Nat) =>
    (List.range size).any fun (y : Nat) =>
      let pos : Position := ⟨(x : Int), (y : Int)⟩
      b pos = player && check_win_from_position b size pos player

/-- Modelled from the spec: a run of exactly `W = 5` contiguous cells of the
side along one of the four directions, i.e. five consecutive in-bounds cells
of the side whose two bounding cells are not also stones of that side.  This
is the spec's win predicate, kept separate from the source's `has_winner` so
the two can be compared. -/
def specExactFiveRun (b : CBoard) (size : Nat) (player : Player) : Bool :=
  (List.range size).any fun (x : Nat) =>
    (List.range size).any fun (y : Nat) =>
      DIRECTIONS.any fun dir =>
        let start : Position := ⟨(x : Int), (y : Int)⟩
        ((List.range NEED_TO_WIN).all fun (i : Nat) =>
           let pos := start.add (dir.scale (i : Int))
           pos.is_valid size && b pos = player)
        && !(let before := start.add (dir.scale (-1))
             before.is_valid size && b before = player)
        && !(let after := start.add (dir.scale (NEED_TO_WIN : Int))
             after.is_valid size && b after = player)

/-- A board holding six consecutive Cross stones at (7,0) … (7,5): an
overline of length six with no maximal run of exactly five. -/
def sixRunBoard : CBoard := fun p =>
  if p.x = 7 ∧ 0 ≤ p.y ∧ p.y < 6 then Player.cross else Player.empty

/-- A board holding five consecutive Cross stones at (7,0) … (7,4). -/
def fiveRunBoard : CBoard := fun p =>
  if p.x = 7 ∧ 0 ≤ p.y ∧ p.y < 5 then Player.cross else Player.empty

/-! ### Evaluator (gomoku.cpp) -/

/-- Threat categories, from `enum class ThreatType` in gomoku.hpp. -/
inductive ThreatType where
  | nothing
  | five
  | straightFour
  | four
  | three
  | fourBroken
  | threeBroken
  | two
  | nearEnemy
  | threeAndFour
  | threeAndThree
  | threeAndThreeBroken
deriving DecidableEq, Repr

/-- The threat scoring matrix populated by `populate_threat_matrix`
(gomoku.cpp). -/
def threat_cost : ThreatType → Int
  | .nothing => 0
  | .five => 1000000
  | .straightFour => 100000
  | .four => 10000
  | .three => 1000
  | .fourBroken => 1000
  | .threeBroken => 100
  | .two => 10
  | .nearEnemy => 1
  | .threeAndFour => 200000
  | .threeAndThree => 50000
  | .threeAndThreeBroken => 10000

/-- List lookup at an `Int` index, defaulting to Empty; every use mirrors a
bounds-guarded C++ access. -/
def lineGet (line : List Player) (i : Int) : Player :=
  if h : 0 ≤ i ∧ i.toNat < line.length then line.get ⟨i.toNat, h.2⟩ else Player.empty

/-- The directional counting loops of `calc_threat_in_one_dimension`
(gomoku.cpp): from index `i`, stepping by `d`, count consecutive stones of
`player` while the index stays in range. -/
def lineRun (line : List Player) (player : Player) : Nat → Int → Int → Nat
  | 0, _, _ => 0
  | fuel + 1, i, d =>
      if 0 ≤ i ∧ i < (line.length : Int) ∧ lineGet line i = player then
        1 + lineRun line player fuel (i + d) d
      else 0

/-- From `calc_threat_in_one_dimension` (gomoku.cpp): classify the line of
`2*W - 1` cells centred on a stone of `player`. -/
def calc_threat_in_one_dimension (line : List Player) (player : Player) : ThreatType :=
  if line.length < NEED_TO_WIN * 2 - 1 then ThreatType.nothing
  else
    let center : Int := (line.length : Int) / 2
    if lineGet line center ≠ player then ThreatType.nothing
    else
      let opponent := other_player player
      let left_count := lineRun line player line.length (center - 1) (-1)
      let right_count := lineRun line player line.length (center + 1) 1
      let count := 1 + left_count + right_count
      let left_blocked := decide (0 ≤ center - (left_count : Int) - 1) &&
        decide (lineGet line (center - (left_count : Int) - 1) = opponent)
      let right_blocked := decide (center + (right_count : Int) + 1 < (line.length : Int)) &&
        decide (lineGet line (center + (right_count : Int) + 1) = opponent)
      let left_open := decide (0 ≤ center - (left_count : Int) - 1) &&
        decide (lineGet line (center - (left_count : Int) - 1) = Player.empty)
      let right_open := decide (center + (right_count : Int) + 1 < (line.length : Int)) &&
        decide (lineGet line (center + (right_count : Int) + 1) = Player.empty)
      if NEED_TO_WIN ≤ count then ThreatType.five
      else if count = 4 then
        if !left_blocked && !right_blocked then ThreatType.straightFour else ThreatType.four
      else if count = 3 then
        if !left_blocked && !right_blocked then ThreatType.three else ThreatType.threeBroken
      else if count = 2 then ThreatType.two
      else if count = 1 then
        if left_open || right_open then ThreatType.nearEnemy else ThreatType.nothing
      else ThreatType.nothing

/-- From `calc_combination_threat` (gomoku.cpp). -/
def calc_combination_threat (one two : ThreatType) : Int :=
  if one = ThreatType.three ∧ two = ThreatType.four then
    threat_cost ThreatType.threeAndFour
  else if one = ThreatType.three ∧ two = ThreatType.three then
    threat_cost ThreatType.threeAndThree
  else 0

/-- From `Board::get_line` (board.hpp): the `2*W - 1` cells centred on
`center` along `direction`, with out-of-bounds cells read as Empty. -/
def get_line (b : CBoard) (size : Nat) (center direction : Position) : List Player :=
  (List.range (NEED_TO_WIN * 2 - 1)).map fun (k : Nat) =>
    let i : Int := (k : Int) - ((NEED_TO_WIN : Int) - 1)
    let pos := center.add (direction.scale i)
    if pos.is_valid size then b pos else Player.empty

/-- The four directional threats computed inside `calc_score_at`
(gomoku.cpp): each direction's line with the centre cell overwritten by
`player`, classified by `calc_threat_in_one_dimension`. -/
def threatsAt (b : CBoard) (size : Nat) (player : Player) (pos : Position) : List ThreatType :=
  DIRECTIONS.map fun dir =>
    let line := (get_line b size pos dir).set (NEED_TO_WIN - 1) player
    calc_threat_in_one_dimension line player

/-- The pairwise combination-bonus double loop of `calc_score_at`
(`for i; for j > i; total += calc_combination_threat(threats[i], threats[j])`). -/
def comboSum : List ThreatType → Int
  | [] => 0
  | t :: ts => (ts.map (calc_combination_threat t)).sum + comboSum ts

/-- From `calc_score_at` (gomoku.cpp): base costs of the four directional
threats plus the pairwise combination bonuses. -/
def calc_score_at (b : CBoard) (size : Nat) (player : Player) (pos : Position) : Int :=
  if !pos.is_valid size then 0
  else
    let threats := threatsAt b size player pos
    (threats.map threat_cost).sum + comboSum threats

/-- All cells of the board in row-major order, mirroring the nested
`for i; for j` scans of gomoku.cpp and game.cpp. -/
def allCells (size : Nat) : List Position :=
  (List.range size).flatMap fun (i : Nat) =>
    (List.range size).map fun (j : Nat) => ⟨(i : Int), (j : Int)⟩

/-- The per-cell term of the evaluation sums in `evaluate_position` and
`evaluate_position_incremental`. -/
def evalCellTerm (b : CBoard) (size : Nat) (player : Player) (pos : Position) : Int :=
  if b pos = player then calc_score_at b size player pos
  else if b pos = other_player player then -(calc_score_at b size (other_player player) pos)
  else 0

/-- From `evaluate_position` (gomoku.cpp): win/loss short-circuit, then the
signed sum of `calc_score_at` over all cells. -/
def evaluate_position (b : CBoard) (size : Nat) (player : Player) : Int :=
  if has_winner b size player then WIN_SCORE
  else if has_winner b size (other_player player) then LOSE_SCORE
  else ((allCells size).map (evalCellTerm b size player)).sum

/-- The cells within Chebyshev radius 3 of `last_move`, in the row-major
order of the loops of `evaluate_position_incremental`. -/
def cellsNear (size : Nat) (last_move : Position) : List Position :=
  let lo : Int → Int := fun c => max 0 (c - 3)
  let hi : Int → Int := fun c => min ((size : Int) - 1) (c + 3)
  let xs := (List.range size).filter fun (i : Nat) =>
    lo last_move.x ≤ (i : Int) ∧ (i : Int) ≤ hi last_move.x
  xs.flatMap fun (i : Nat) =>
    ((List.range size).filter fun (j : Nat) =>
      lo last_move.y ≤ (j : Int) ∧ (j : Int) ≤ hi last_move.y).map
      fun (j : Nat) => (⟨(i : Int), (j : Int)⟩ : Position)

/-- From `evaluate_position_incremental` (gomoku.cpp): as `evaluate_position`
but summing only cells within radius 3 of the last move. -/
def evaluate_position_incremental (b : CBoard) (size : Nat) (player : Player)
    (last_move : Position) : Int :=
  if has_winner b size player then WIN_SCORE
  else if has_winner b size (other_player player) then LOSE_SCORE
  else ((cellsNear size last_move).map (evalCellTerm b size player)).sum

/-- A small concrete board used to instantiate evaluator theorems: a Cross
at (7,6) and a Naught at (9,9). -/
def evalDemoBoard : CBoard := fun p =>
  if p.x = 7 ∧ p.y = 6 then Player.cross
  else if p.x = 9 ∧ p.y = 9 then Player.naught
  else Player.empty

/-! ### Game state (game.h / game.cpp) -/

/-- `MAX_MOVE_HISTORY` from game.h. -/
def MAX_MOVE_HISTORY : Nat := 400

/-- `MAX_AI_HISTORY` from game.h. -/
def MAX_AI_HISTORY : Nat := 20

/-- `TRANSPOSITION_TABLE_SIZE` from game.h. -/
def TRANSPOSITION_TABLE_SIZE : Nat := 100000

/-- `TT_EXACT` from game.h. -/
def TT_EXACT : Int := 0

/-- `TT_LOWER_BOUND` from game.h. -/
def TT_LOWER_BOUND : Int := 1

/-- `TT_UPPER_BOUND` from game.h. -/
def TT_UPPER_BOUND : Int := 2

/-- `MAX_KILLER_MOVES` from game.h. -/
def MAX_KILLER_MOVES : Nat := 2

/-- `MAX_SEARCH_DEPTH` from game.h. -/
def MAX_SEARCH_DEPTH : Nat := 10

/-- An entry of `move_history`, from `move_history_t` (game.h); the timing
and statistics fields (`time_taken`, `positions_evaluated`) only feed the
floating-point timing totals and display and are not modelled. -/
structure MoveRec where
  x : Int
  y : Int
  player : Player
deriving DecidableEq, Repr

/-- From `interesting_move_t` (game.h). -/
structure IMove where
  x : Int
  y : Int
  is_active : Bool
deriving DecidableEq, Repr

/-- From `transposition_entry_t` (game.h). -/
structure TTEntry where
  hash : Nat
  value : Int
  depth : Int
  flag : Int
  best_move_x : Int
  best_move_y : Int
deriving DecidableEq, Repr

/-- From `enum class GameState` (gomoku.hpp). -/
inductive GameSt where
  | running
  | humanWin
  | aiWin
  | draw
  | quit
deriving DecidableEq, Repr

/-- The fields of `game_state_t` (game.h) used by the modelled operations.
The cursor, display strings, timing doubles and the threat-space /
aspiration-window blocks (never consulted by the modelled call paths) are
omitted.  The monotone wall clock is modelled by `ticks` (number of timeout
checks made so far in the current search) and `deadline` (the first check
index at which the clock exceeds `search_start_time + move_timeout`). -/
structure GState where
  board_size : Nat
  board : CBoard
  enable_undo : Bool
  current_player : Player
  game_state : GameSt
  max_depth : Nat
  move_timeout : Nat
  move_history : List MoveRec
  ai_history_count : Nat
  last_ai_move_x : Int
  last_ai_move_y : Int
  search_timed_out : Bool
  interesting_moves : List IMove
  stones_on_board : Nat
  has_winner_cache : Bool × Bool
  winner_cache_valid : Bool
  tt : Nat → TTEntry
  zobrist_keys : Nat → Int → Nat
  current_hash : Nat
  killer_moves : Nat → List (Int × Int)
  ticks : Nat
  deadline : Nat

/-- Board write `board[x][y] = player` on the modelled board function. -/
def board_set (b : CBoard) (x y : Int) (p : Player) : CBoard :=
  fun q => if q.x = x ∧ q.y = y then p else b q

/-- From the C interface `is_valid_move` (gomoku.cpp). -/
def is_valid_move (b : CBoard) (x y : Int) (size : Nat) : Bool :=
  0 ≤ x && x < (size : Int) && 0 ≤ y && y < (size : Int) && b ⟨x, y⟩ = Player.empty

/-- The player index used for `zobrist_keys` lookups:
`(player == CROSSES) ? 0 : 1`. -/
def playerIndex (p : Player) : Nat := if p = Player.cross then 0 else 1

/-- The integer range `lo, lo+1, …, hi` of a C `for (i = lo; i <= hi; i++)`
loop. -/
def intRange (lo hi : Int) : List Int :=
  (List.range (hi + 1 - lo).toNat).map fun (k : Nat) => lo + (k : Int)

/-- From `add_move_to_history` (game.cpp): the move is recorded only while
the history array is not full. -/
def add_move_to_history (g : GState) (x y : Int) (player : Player) : GState :=
  if g.move_history.length < MAX_MOVE_HISTORY then
    { g with move_history := g.move_history ++ [⟨x, y, player⟩] }
  else g

/-- From `add_ai_history_entry` (game.cpp): bumps the AI history count,
shifting out the oldest entry when full (the strings themselves are not
modelled). -/
def add_ai_history_entry (g : GState) : GState :=
  if MAX_AI_HISTORY ≤ g.ai_history_count then { g with ai_history_count := MAX_AI_HISTORY }
  else { g with ai_history_count := g.ai_history_count + 1 }

/-- From `check_game_state` (game.cpp). -/
def check_game_state (g : GState) : GState :=
  if has_winner g.board g.board_size Player.cross then
    { g with game_state := GameSt.humanWin }
  else if has_winner g.board g.board_size Player.naught then
    { g with game_state := GameSt.aiWin }
  else if ((allCells g.board_size).filter fun pos => g.board pos = Player.empty).length = 0 then
    { g with game_state := GameSt.draw }
  else g

/-- From `invalidate_winner_cache` (game.cpp). -/
def invalidate_winner_cache (g : GState) : GState :=
  { g with winner_cache_valid := false }

/-- From `get_cached_winner` (game.cpp): recompute both sides' winner bits
when the cache is invalid, then read the requested side's bit. -/
def get_cached_winner (g : GState) (player : Player) : Bool × GState :=
  let g :=
    if !g.winner_cache_valid then
      { g with
          has_winner_cache :=
            (has_winner g.board g.board_size Player.cross,
             has_winner g.board g.board_size Player.naught),
          winner_cache_valid := true }
    else g
  (if player = Player.cross then g.has_winner_cache.1 else g.has_winner_cache.2, g)

/-- The insertion pass of `update_interesting_moves` (game.cpp): walk the
clipped radius-2 square around the new stone in row-major order and append
each empty cell that is not already recorded as active, capping the list at
361 entries. -/
def addInteresting (g : GState) (x y : Int) : List IMove :=
  ((intRange (max 0 (x - 2)) (min ((g.board_size : Int) - 1) (x + 2))).flatMap fun i =>
      (intRange (max 0 (y - 2)) (min ((g.board_size : Int) - 1) (y + 2))).map fun j => (i, j)).foldl
    (fun ims c =>
      if g.board ⟨c.1, c.2⟩ = Player.empty then
        if ims.any fun m => m.x = c.1 ∧ m.y = c.2 ∧ m.is_active then ims
        else if ims.length < 361 then ims ++ [⟨c.1, c.2, true⟩]
        else ims
      else ims)
    g.interesting_moves

/-- The deactivation pass of `update_interesting_moves`: clear the active
bit of the first entry recorded for the played cell. -/
def deactivateFirst : List IMove → Int → Int → List IMove
  | [], _, _ => []
  | m :: ms, x, y =>
      if m.x = x ∧ m.y = y then { m with is_active := false } :: ms
      else m :: deactivateFirst ms x y

/-- From `update_interesting_moves` (game.cpp): bump the stone count,
invalidate the winner cache, add fresh interesting cells around the stone
and deactivate the played cell. -/
def update_interesting_moves (g : GState) (x y : Int) : GState :=
  { g with
      stones_on_board := g.stones_on_board + 1,
      winner_cache_valid := false,
      interesting_moves := deactivateFirst (addInteresting g x y) x y }

/-- From `make_move` (game.cpp): validate, record history, place the stone,
update the caches, re-check the game state and hand the turn over.  Returns
the updated state and the C function's 0/1 result. -/
def make_move (g : GState) (x y : Int) (player : Player) : GState × Bool :=
  if !is_valid_move g.board x y g.board_size then (g, false)
  else
    let g := add_move_to_history g x y player
    let g := { g with board := board_set g.board x y player }
    let g := update_interesting_moves g x y
    let g := check_game_state g
    let g :=
      if g.game_state = GameSt.running then
        { g with current_player := other_player g.current_player }
      else g
    (g, true)

/-- From `can_undo` (game.cpp). -/
def can_undo (g : GState) : Bool :=
  g.enable_undo && 2 ≤ g.move_history.length

/-- One iteration of the removal loop in `undo_last_moves`: pop the most
recent history entry and clear its cell (the timing-total updates are not
modelled). -/
def popLastMove (g : GState) : GState :=
  match g.move_history.getLast? with
  | none => g
  | some m =>
      { g with
          move_history := g.move_history.dropLast,
          board := board_set g.board m.x m.y Player.empty }

/-- From `undo_last_moves` (game.cpp): remove the last two moves, drop the
last AI history entry, reset the AI-move highlight, hand the turn back to
the human and restore the running state. -/
def undo_last_moves (g : GState) : GState :=
  if !can_undo g then g
  else
    let g := popLastMove (popLastMove g)
    let g := { g with ai_history_count := g.ai_history_count - 1 }
    { g with
        last_ai_move_x := -1,
        last_ai_move_y := -1,
        current_player := Player.cross,
        game_state := GameSt.running }

/-- One cell's contribution step of the hash loop in `compute_zobrist_hash`
(game.cpp). -/
def zstep (g : GState) (hash : Nat) (pos : Position) : Nat :=
  if g.board pos ≠ Player.empty then
    hash ^^^ g.zobrist_keys (playerIndex (g.board pos)) (pos.x * (g.board_size : Int) + pos.y)
  else hash

/-- From `compute_zobrist_hash` (game.cpp): XOR of the per-(side, cell)
Zobrist keys over all occupied cells, scanned in row-major order. -/
def compute_zobrist_hash (g : GState) : Nat :=
  (allCells g.board_size).foldl (zstep g) 0

/-- From `store_transposition` (game.cpp): replace the slot when it is empty
or its depth does not exceed the incoming depth. -/
def store_transposition (g : GState) (hash : Nat) (value : Int) (depth : Int) (flag : Int)
    (best_x best_y : Int) : GState :=
  let index := hash % TRANSPOSITION_TABLE_SIZE
  let entry := g.tt index
  if entry.hash = 0 ∨ entry.depth ≤ depth then
    { g with tt := fun i => if i = index then ⟨hash, value, depth, flag, best_x, best_y⟩ else g.tt i }
  else g

/-- From `probe_transposition` (game.cpp): the probe result, `some value`
for the C function's return 1 with `*value` set, `none` for return 0. -/
def probe_transposition (g : GState) (hash : Nat) (depth alpha beta : Int) : Option Int :=
  let entry := g.tt (hash % TRANSPOSITION_TABLE_SIZE)
  if entry.hash = hash ∧ depth ≤ entry.depth then
    if entry.flag = TT_EXACT then some entry.value
    else if entry.flag = TT_LOWER_BOUND ∧ beta ≤ entry.value then some entry.value
    else if entry.flag = TT_UPPER_BOUND ∧ entry.value ≤ alpha then some entry.value
    else none
  else none

/-- From `is_killer_move` (game.cpp). -/
def is_killer_move (g : GState) (depth : Nat) (x y : Int) : Bool :=
  if MAX_SEARCH_DEPTH ≤ depth then false
  else (g.killer_moves depth).any fun m => m.1 = x ∧ m.2 = y

/-- From `store_killer_move` (game.cpp): shift-insert at the front of the
per-depth pair of killer slots. -/
def store_killer_move (g : GState) (depth : Nat) (x y : Int) : GState :=
  if MAX_SEARCH_DEPTH ≤ depth then g
  else if is_killer_move g depth x y then g
  else
    { g with
        killer_moves := fun d =>
          if d = depth then (x, y) :: (g.killer_moves depth).take (MAX_KILLER_MOVES - 1)
          else g.killer_moves d }

/-- From `is_search_timed_out` (game.cpp), under the tick model of the
monotone clock: with no timeout configured the check reports 0; otherwise it
reports whether the clock has passed the deadline.  Each call advances the
clock. -/
def is_search_timed_out (g : GState) : Bool × GState :=
  ((decide (0 < g.move_timeout) && decide (g.deadline ≤ g.ticks)), { g with ticks := g.ticks + 1 })

/-- The centre-area interesting moves built by `init_optimization_caches`
(game.cpp) for an empty board. -/
def centerInteresting (size : Nat) : List IMove :=
  let center : Int := (size : Int) / 2
  (intRange (center - 2) (center + 2)).flatMap fun i =>
    (intRange (center - 2) (center + 2)).filterMap fun j =>
      if 0 ≤ i ∧ i < (size : Int) ∧ 0 ≤ j ∧ j < (size : Int) then some ⟨i, j, true⟩
      else none

/-- From `init_game` / `init_optimization_caches` / `init_transposition_table`
/ `init_killer_moves` (game.cpp).  The Zobrist keys, produced in C by
`rand()` after `srand(12345)` (implementation-defined values), are supplied
as a parameter; the clock deadline of the tick model is likewise a
parameter. -/
def init_game (size : Nat) (max_depth : Nat) (move_timeout : Nat) (enable_undo : Bool)
    (keys : Nat → Int → Nat) (deadline : Nat) : GState :=
  let g : GState :=
    { board_size := size
      board := fun _ => Player.empty
      enable_undo := enable_undo
      current_player := Player.cross
      game_state := GameSt.running
      max_depth := max_depth
      move_timeout := move_timeout
      move_history := []
      ai_history_count := 0
      last_ai_move_x := -1
      last_ai_move_y := -1
      search_timed_out := false
      interesting_moves := centerInteresting size
      stones_on_board := 0
      has_winner_cache := (false, false)
      winner_cache_valid := false
      tt := fun _ => ⟨0, 0, 0, 0, 0, 0⟩
      zobrist_keys := keys
      current_hash := 0
      killer_moves := fun _ => [(-1, -1), (-1, -1)]
      ticks := 0
      deadline := deadline }
  { g with current_hash := compute_zobrist_hash g }

/-- A concrete fresh 15×15 state used by witnesses and counterexamples. -/
def demoState : GState :=
  init_game 15 4 0 true (fun i pos => (pos + 15 * i + 1).toNat) 1000000

/-- A deadline-expiring variant of the demo state: the clock budget runs out
after a single tick. -/
def gW4 : GState := { demoState with move_timeout := 5, deadline := 1 }

/-- The state in which the first depth iteration of the iterative-deepening
loop on `gW4` stops: two clock ticks taken, sticky flag raised. -/
def g1W4 : GState :=
  { (is_search_timed_out (is_search_timed_out gW4).2).2 with search_timed_out := true }

/-- A two-stone demo state (Cross at (7,7), Naught at (8,8)): past the
opening, so the parallel driver takes its parallel path. -/
def twoStoneState : GState :=
  (make_move (make_move demoState 7 7 Player.cross).1 8 8 Player.naught).1

/-! ### Sequential search (ai.cpp) -/

/-- From `move_t` (ai.h). -/
structure MoveT where
  x : Int
  y : Int
  priority : Int
deriving DecidableEq, Repr

/-- One ray of the direction loops in `evaluate_threat_fast` (ai.cpp):
count consecutive stones of the player from `(cx, cy)` while in bounds.  The
C `while` loop leaves the board after at most `board_size` steps along a
nonzero direction, so the fuel equals the board size. -/
def threatRay (b : CBoard) (size : Nat) (player : Player) :
    Nat → Int → Int → Int → Int → Nat
  | 0, _, _, _, _ => 0
  | fuel + 1, cx, cy, dx, dy =>
      if 0 ≤ cx ∧ cx < (size : Int) ∧ 0 ≤ cy ∧ cy < (size : Int)
          ∧ b ⟨cx, cy⟩ = player then
        1 + threatRay b size player fuel (cx + dx) (cy + dy) dx dy
      else 0

/-- From `evaluate_threat_fast` (ai.cpp): the maximum categorical threat
score over the four directions as if the cell were filled. -/
def evaluate_threat_fast (b : CBoard) (x y : Int) (player : Player) (size : Nat) : Int :=
  ([(1, 0), (0, 1), (1, 1), (1, -1)] : List (Int × Int)).foldl
    (fun mx d =>
      let count := 1 + threatRay b size player size (x + d.1) (y + d.2) d.1 d.2
          + threatRay b size player size (x - d.1) (y - d.2) (-d.1) (-d.2)
      let threat : Int :=
        if 5 ≤ count then 100000
        else if count = 4 then 10000
        else if count = 3 then 1000
        else if count = 2 then 100
        else 0
      max mx threat)
    0

/-- From `get_move_priority_optimized` (ai.cpp). -/
def get_move_priority_optimized (g : GState) (x y : Int) (player : Player) : Int :=
  let center : Int := (g.board_size : Int) / 2
  let priority : Int := max 0 ((g.board_size : Int) - (|x - center| + |y - center|))
  let my_threat := evaluate_threat_fast g.board x y player g.board_size
  let opp_threat := evaluate_threat_fast g.board x y (other_player player) g.board_size
  if 100000 ≤ my_threat then 100000
  else if 100000 ≤ opp_threat then 50000
  else
    let priority := priority + (if is_killer_move g g.max_depth x y then 10000 else 0)
    priority + my_threat / 10 + opp_threat / 5

/-- From `generate_moves_optimized` (ai.cpp): the active interesting moves
whose cells are still empty, in cache order, with their priorities. -/
def generate_moves_optimized (g : GState) (current_player : Player) : List MoveT :=
  g.interesting_moves.filterMap fun im =>
    if im.is_active ∧ g.board ⟨im.x, im.y⟩ = Player.empty then
      some ⟨im.x, im.y, get_move_priority_optimized g im.x im.y current_player⟩
    else none

/-- Insertion step of the move ordering: place a move before the first
strictly lower-priority move. -/
def insertByPriority (m : MoveT) : List MoveT → List MoveT
  | [] => [m]
  | n :: ns => if n.priority < m.priority then m :: n :: ns else n :: insertByPriority m ns

/-- The `qsort(moves, …, compare_moves)` call of ai.cpp: sort by priority
descending.  qsort's order among equal priorities is unspecified; it is
modelled as the stable descending sort. -/
def sortMoves : List MoveT → List MoveT
  | [] => []
  | m :: ms => insertByPriority m (sortMoves ms)

/-- The common prefix of `minimax_with_timeout` (ai.cpp): the timeout check,
the hash computation, the transposition probe and the two winner checks.
`Sum.inl` is an early return; `Sum.inr` carries the threaded state and the
position hash for the later transposition store. -/
def minimaxPre (depth : Nat) (g : GState) (alpha beta : Int) (ai_player : Player)
    (last_x last_y : Int) : (Int × GState) ⊕ (GState × Nat) :=
  let tg := is_search_timed_out g
  if tg.1 then
    (Sum.inl
      (evaluate_position_incremental tg.2.board tg.2.board_size ai_player ⟨last_x, last_y⟩,
       { tg.2 with search_timed_out := true }))
  else
    let g := tg.2
    let hash := compute_zobrist_hash g
    match probe_transposition g hash (depth : Int) alpha beta with
    | some v => Sum.inl (v, g)
    | none =>
        let w1 := get_cached_winner g ai_player
        if w1.1 then
          let value := WIN_SCORE + (depth : Int)
          Sum.inl (value, store_transposition w1.2 hash value (depth : Int) TT_EXACT (-1) (-1))
        else
          let w2 := get_cached_winner w1.2 (other_player ai_player)
          if w2.1 then
            let value := -WIN_SCORE - (depth : Int)
            Sum.inl (value, store_transposition w2.2 hash value (depth : Int) TT_EXACT (-1) (-1))
          else Sum.inr (w2.2, hash)

/-- The state carried by either branch of a `minimaxPre` result. -/
def preState : (Int × GState) ⊕ (GState × Nat) → GState
  | Sum.inl r => r.2
  | Sum.inr r => r.1

/-- Exit of the move loops of `minimax_with_timeout`: a timeout inside the
loop returns the running best immediately (skipping the transposition and
killer stores); otherwise the loop completes (by exhaustion or a break) with
the best value, the best move and the final window. -/
inductive MMExit where
  | timeoutExit (v : Int)
  | completed (v best_x best_y alphaF betaF : Int)
deriving Repr

/-- The shared body of one move iteration of the `minimax_with_timeout`
loops: place the stone, update the incremental hash, invalidate the winner
cache, recurse, then restore hash, cache state and board. -/
def mmStep (recur : GState → Int → Int → Int → Int → Int × GState) (current : Player)
    (m : MoveT) (g : GState) (alpha beta : Int) : Int × GState :=
  let key := g.zobrist_keys (playerIndex current) (m.x * (g.board_size : Int) + m.y)
  let g := { g with
      board := board_set g.board m.x m.y current,
      current_hash := g.current_hash ^^^ key }
  let g := invalidate_winner_cache g
  let eg := recur g alpha beta m.x m.y
  let g := { eg.2 with current_hash := eg.2.current_hash ^^^ key }
  let g := invalidate_winner_cache g
  let g := { g with board := board_set g.board m.x m.y Player.empty }
  (eg.1, g)

/-- The maximizing move loop of `minimax_with_timeout` (ai.cpp), with the
recursive call abstracted as `recur g alpha beta last_x last_y`. -/
def mmLoopMax (recur : GState → Int → Int → Int → Int → Int × GState) (depth : Nat)
    (current : Player) :
    List MoveT → GState → Int → Int → Int → Int → Int → MMExit × GState
  | [], g, alpha, beta, max_eval, bx, bby => (.completed max_eval bx bby alpha beta, g)
  | m :: rest, g, alpha, beta, max_eval, bx, bby =>
      let tg := is_search_timed_out g
      if tg.1 then (.timeoutExit max_eval, { tg.2 with search_timed_out := true })
      else if 2 < depth ∧ m.priority < 10 then
        mmLoopMax recur depth current rest tg.2 alpha beta max_eval bx bby
      else
        let r := mmStep recur current m tg.2 alpha beta
        let eval := r.1
        let upd := if max_eval < eval then (eval, m.x, m.y) else (max_eval, bx, bby)
        let alpha := max alpha eval
        if WIN_SCORE - 1000 ≤ eval then (.completed upd.1 upd.2.1 upd.2.2 alpha beta, r.2)
        else if beta ≤ alpha then (.completed upd.1 upd.2.1 upd.2.2 alpha beta, r.2)
        else mmLoopMax recur depth current rest r.2 alpha beta upd.1 upd.2.1 upd.2.2

/-- The minimizing move loop of `minimax_with_timeout` (ai.cpp). -/
def mmLoopMin (recur : GState → Int → Int → Int → Int → Int × GState) (depth : Nat)
    (current : Player) :
    List MoveT → GState → Int → Int → Int → Int → Int → MMExit × GState
  | [], g, alpha, beta, min_eval, bx, bby => (.completed min_eval bx bby alpha beta, g)
  | m :: rest, g, alpha, beta, min_eval, bx, bby =>
      let tg := is_search_timed_out g
      if tg.1 then (.timeoutExit min_eval, { tg.2 with search_timed_out := true })
      else if 2 < depth ∧ m.priority < 10 then
        mmLoopMin recur depth current rest tg.2 alpha beta min_eval bx bby
      else
        let r := mmStep recur current m tg.2 alpha beta
        let eval := r.1
        let upd := if eval < min_eval then (eval, m.x, m.y) else (min_eval, bx, bby)
        let beta := min beta eval
        if eval ≤ -WIN_SCORE + 1000 then (.completed upd.1 upd.2.1 upd.2.2 alpha beta, r.2)
        else if beta ≤ alpha then (.completed upd.1 upd.2.1 upd.2.2 alpha beta, r.2)
        else mmLoopMin recur depth current rest r.2 alpha beta upd.1 upd.2.1 upd.2.2

/-- From `minimax_with_timeout` (ai.cpp).  Structural recursion on the
remaining depth; returns the evaluation and the threaded state. -/
def minimax : Nat → GState → Int → Int → Bool → Player → Int → Int → Int × GState
  | 0, g, alpha, beta, _, ai_player, last_x, last_y =>
      (match minimaxPre 0 g alpha beta ai_player last_x last_y with
       | Sum.inl r => r
       | Sum.inr (g, hash) =>
           let value := evaluate_position_incremental g.board g.board_size ai_player
             ⟨last_x, last_y⟩
           (value, store_transposition g hash value 0 TT_EXACT (-1) (-1)))
  | depth + 1, g, alpha, beta, maximizing, ai_player, last_x, last_y =>
      (match minimaxPre (depth + 1) g alpha beta ai_player last_x last_y with
       | Sum.inl r => r
       | Sum.inr (g, hash) =>
           if g.stones_on_board = 0 then (0, g)
           else
             let current := if maximizing then ai_player else other_player ai_player
             let moves := sortMoves (generate_moves_optimized g current)
             if moves.length = 0 then (0, g)
             else if maximizing then
               match mmLoopMax (fun g a b lx ly => minimax depth g a b false ai_player lx ly)
                   (depth + 1) current moves g alpha beta (-WIN_SCORE - 1) (-1) (-1) with
               | (.timeoutExit v, g) => (v, g)
               | (.completed v bx bby _ _, g) =>
                   let flag :=
                     if v ≤ alpha then TT_UPPER_BOUND
                     else if beta ≤ v then TT_LOWER_BOUND
                     else TT_EXACT
                   let g := store_transposition g hash v ((depth : Int) + 1) flag bx bby
                   let g :=
                     if beta ≤ v ∧ bx ≠ -1 then store_killer_move g (depth + 1) bx bby else g
                   (v, g)
             else
               match mmLoopMin (fun g a b lx ly => minimax depth g a b true ai_player lx ly)
                   (depth + 1) current moves g alpha beta (WIN_SCORE + 1) (-1) (-1) with
               | (.timeoutExit v, g) => (v, g)
               | (.completed v bx bby _ betaF, g) =>
                   let flag :=
                     if v ≤ alpha then TT_UPPER_BOUND
                     else if betaF ≤ v then TT_LOWER_BOUND
                     else TT_EXACT
                   let g := store_transposition g hash v ((depth : Int) + 1) flag bx bby
                   let g :=
                     if v ≤ alpha ∧ bx ≠ -1 then store_killer_move g (depth + 1) bx bby else g
                   (v, g))

/-- The scan of `find_first_ai_move` (ai.cpp) locating the human's first
stone: first Cross cell in row-major order. -/
def findFirstCross (g : GState) : Option (Int × Int) :=
  (allCells g.board_size).findSome? fun pos =>
    if g.board pos = Player.cross then some (pos.x, pos.y) else none

/-- The candidate collection of `find_first_ai_move` (ai.cpp): for distance
1 then 2, all in-bounds empty cells `(hx+dx, hy+dy)` with `dx, dy` ranging
over the box of that distance, skipping the origin.  Distance-1 cells are
visited by both iterations and therefore appear twice. -/
def firstMoveCandidates (g : GState) (hx hy : Int) : List (Int × Int) :=
  (intRange 1 2).flatMap fun dist =>
    (intRange (-dist) dist).flatMap fun dx =>
      (intRange (-dist) dist).filterMap fun dy =>
        if dx = 0 ∧ dy = 0 then none
        else
          let nx := hx + dx
          let ny := hy + dy
          if 0 ≤ nx ∧ nx < (g.board_size : Int) ∧ 0 ≤ ny ∧ ny < (g.board_size : Int)
              ∧ g.board ⟨nx, ny⟩ = Player.empty then some (nx, ny)
          else none

/-- From `find_first_ai_move` (ai.cpp); `rng k` is the result of the k-th
`rand()` call. -/
def find_first_ai_move (g : GState) (rng : Nat → Nat) : Int × Int :=
  match findFirstCross g with
  | none => ((g.board_size : Int) / 2, (g.board_size : Int) / 2)
  | some (hx, hy) =>
      let valid := firstMoveCandidates g hx hy
      if 0 < valid.length then valid.getD (rng 0 % valid.length) (0, 0)
      else
        let fx := hx + ((rng 0 % 3 : Nat) : Int) - 1
        let fy := hy + ((rng 1 % 3 : Nat) : Int) - 1
        (max 0 (min ((g.board_size : Int) - 1) fx), max 0 (min ((g.board_size : Int) - 1) fy))

/-- The stone recount at the top of `find_best_ai_move` (ai.cpp). -/
def countStones (g : GState) : Nat :=
  ((allCells g.board_size).filter fun pos => g.board pos ≠ Player.empty).length

/-- The immediate-win scan of `find_best_ai_move` (ai.cpp), run over the
unsorted generated moves. -/
def findCheckmate (g : GState) : List MoveT → Option (Int × Int)
  | [] => none
  | m :: ms =>
      if 100000 ≤ evaluate_threat_fast g.board m.x m.y Player.naught g.board_size then
        some (m.x, m.y)
      else findCheckmate g ms

/-- Exit of one depth iteration of the iterative-deepening loop of
`find_best_ai_move`: either the early return on a winning score, or the
final depth-best of the iteration (by exhaustion or a timeout break). -/
inductive DepthExit where
  | earlyWin (x y : Int)
  | normal (bx bby : Int)
deriving Repr

/-- The position carried by a depth-iteration exit. -/
def DepthExit.pos : DepthExit → Int × Int
  | .earlyWin x y => (x, y)
  | .normal bx bby => (bx, bby)

/-- The per-move search of one iterative-deepening iteration in
`find_best_ai_move` (ai.cpp): place the Naught, update the incremental
hash, run the minimax child search with the full window, then restore hash
and board. -/
def idStep (d : Nat) (m : MoveT) (g : GState) : Int × GState :=
  let key := g.zobrist_keys 1 (m.x * (g.board_size : Int) + m.y)
  let g := { g with
      board := board_set g.board m.x m.y Player.naught,
      current_hash := g.current_hash ^^^ key }
  let sg := minimax (d - 1) g (-WIN_SCORE - 1) (WIN_SCORE + 1) false Player.naught m.x m.y
  let g := { sg.2 with current_hash := sg.2.current_hash ^^^ key }
  let g := { g with board := board_set g.board m.x m.y Player.empty }
  (sg.1, g)

/-- One depth iteration (the inner move loop) of the iterative deepening in
`find_best_ai_move` (ai.cpp). -/
def depthLoop (d : Nat) : List MoveT → GState → Int → Int → Int → DepthExit × GState
  | [], g, _, dbx, dby => (.normal dbx dby, g)
  | m :: rest, g, dbScore, dbx, dby =>
      let tg := is_search_timed_out g
      if tg.1 then (.normal dbx dby, { tg.2 with search_timed_out := true })
      else
        let r := idStep d m tg.2
        let score := r.1
        if dbScore < score then
          if WIN_SCORE - 1000 ≤ score then (.earlyWin m.x m.y, r.2)
          else if r.2.search_timed_out then (.normal m.x m.y, r.2)
          else depthLoop d rest r.2 score m.x m.y
        else if r.2.search_timed_out then (.normal dbx dby, r.2)
        else depthLoop d rest r.2 dbScore dbx dby

/-- The iterative-deepening loop of `find_best_ai_move` (ai.cpp): published
best so far, one `depthLoop` per depth, publishing only iterations that
finished without the sticky timeout flag.  The returned Bool records an
early-win exit (whose AI-history bump already happened). -/
def idLoop : List Nat → GState → List MoveT → Int × Int → ((Int × Int) × GState × Bool)
  | [], g, _, best => (best, g, false)
  | d :: rest, g, moves, best =>
      let tg := is_search_timed_out g
      if tg.1 then (best, tg.2, false)
      else
        match depthLoop d moves tg.2 (-WIN_SCORE - 1) best.1 best.2 with
        | (.earlyWin x y, g) => ((x, y), add_ai_history_entry g, true)
        | (.normal bx bby, g) =>
            let best := if !g.search_timed_out then (bx, bby) else best
            idLoop rest g moves best

/-- From `find_best_ai_move` (ai.cpp): reset the search clock and sticky
flag, take the random-opening branch on a single stone, otherwise scan for
an immediate win and run iterative deepening over the sorted candidates
(the console messages are not modelled). -/
def find_best_ai_move (g : GState) (rng : Nat → Nat) : (Int × Int) × GState :=
  let g := { g with ticks := 0, search_timed_out := false }
  if countStones g = 1 then
    (find_first_ai_move g rng, add_ai_history_entry g)
  else
    let moves0 := generate_moves_optimized g Player.naught
    match findCheckmate g moves0 with
    | some c => (c, add_ai_history_entry g)
    | none =>
        let moves := sortMoves moves0
        let best0 : Int × Int :=
          if 0 < moves.length then ((moves.headD ⟨0, 0, 0⟩).x, (moves.headD ⟨0, 0, 0⟩).y)
          else (-1, -1)
        match idLoop (List.range' 1 g.max_depth) g moves best0 with
        | (res, g, true) => (res, g)
        | (res, g, false) => (res, add_ai_history_entry g)

/-! ### Parallel driver (ai_parallel.cpp) -/

/-- From `ParallelAI::MoveEvaluation` (ai_parallel.hpp). -/
structure MoveEvaluation where
  x : Int
  y : Int
  score : Int
  priority : Int
  completed : Bool
deriving DecidableEq, Repr

/-- From `ParallelAI::ParallelSearchState` (ai_parallel.hpp); the atomics
are modelled as plain fields of the sequentialized driver. -/
structure ParallelSearchState where
  global_alpha : Int
  global_beta : Int
  timeout_occurred : Bool
  best_score : Int
  moves_evaluated : Nat
deriving DecidableEq, Repr

/-- The initial `ParallelSearchState` (ai_parallel.hpp). -/
def initSearchState : ParallelSearchState :=
  { global_alpha := -WIN_SCORE - 1
    global_beta := WIN_SCORE + 1
    timeout_occurred := false
    best_score := -WIN_SCORE - 1
    moves_evaluated := 0 }

/-- From `ParallelAI::evaluate_move_parallel` (ai_parallel.cpp), modelled
for one task: `fail` abstracts the environmental failure paths (clone
allocation failure or an exception, which leave the evaluation incomplete).
On success the clone receives the move and is searched by the sequential
minimax with the current shared window. -/
def evaluate_move_parallel (g : GState) (ev : MoveEvaluation) (st : ParallelSearchState)
    (fail : Bool) : MoveEvaluation × ParallelSearchState :=
  if st.timeout_occurred then (ev, st)
  else if fail then ({ ev with completed := false }, st)
  else
    let key := g.zobrist_keys 1 (ev.x * (g.board_size : Int) + ev.y)
    let clone := { g with
        board := board_set g.board ev.x ev.y Player.naught,
        current_hash := g.current_hash ^^^ key }
    let alpha := st.global_alpha
    let beta := st.global_beta
    let score := (minimax (clone.max_depth - 1) clone alpha beta false Player.naught ev.x ev.y).1
    let st :=
      if st.best_score < score then
        { st with best_score := score, global_alpha := max alpha score }
      else st
    ({ ev with score := score, completed := true },
     { st with moves_evaluated := st.moves_evaluated + 1 })

/-- The task batch of `find_best_move_parallel`: evaluations of the first
`max_parallel` moves and then the sequential remainder, modelled in
submission order (the shared atomics only tighten later tasks' windows;
the failure oracle `fail i` marks task `i` incomplete). -/
def runEvaluations (g : GState) (fail : Nat → Bool) :
    List (MoveEvaluation × Nat) → ParallelSearchState → Nat →
      List MoveEvaluation × ParallelSearchState
  | [], st, _ => ([], st)
  | (ev, i) :: rest, st, max_parallel =>
      if max_parallel ≤ i ∧ st.timeout_occurred then
        ((ev, i) :: rest).map (fun p => p.1) |> fun evs => (evs, st)
      else
        let r := evaluate_move_parallel g ev st (fail i)
        let rec_r := runEvaluations g fail rest r.2 max_parallel
        (r.1 :: rec_r.1, rec_r.2)

/-- The aggregation loop of `find_best_move_parallel` (ai_parallel.cpp,
lines 97-108), one step: a completed evaluation strictly above the running
best score replaces it; anything else leaves the accumulator alone. -/
def aggStep (acc : Int × Int × Int) (ev : MoveEvaluation) : Int × Int × Int :=
  if ev.completed ∧ acc.1 < ev.score then (ev.score, ev.x, ev.y) else acc

/-- The final fold of the aggregation loop, starting from score
`-WIN_SCORE - 1` and move `(-1, -1)`. -/
def aggregateEvaluations (evals : List MoveEvaluation) : Int × Int :=
  (evals.foldl aggStep (-WIN_SCORE - 1, -1, -1)).2

/-- From `ParallelAI::find_best_move_parallel` (ai_parallel.cpp): the
sequential fallback for the opening or a per-move timeout, the single- and
zero-candidate early returns, and otherwise the parallel batch followed by
aggregation.  `pool_size` is the thread pool's size and `fail` the per-task
failure oracle. -/
def find_best_move_parallel (g : GState) (rng : Nat → Nat) (pool_size : Nat)
    (fail : Nat → Bool) : (Int × Int) × GState :=
  if g.stones_on_board < 2 ∨ 0 < g.move_timeout then find_best_ai_move g rng
  else
    let moves := generate_moves_optimized g Player.naught
    if moves.length = 0 then ((-1, -1), g)
    else if moves.length = 1 then
      (((moves.headD ⟨0, 0, 0⟩).x, (moves.headD ⟨0, 0, 0⟩).y), g)
    else
      let sorted := sortMoves moves
      let max_parallel := min (min sorted.length pool_size) 8
      let evals0 := sorted.map fun m =>
        ({ x := m.x, y := m.y, score := -WIN_SCORE - 1, priority := m.priority,
           completed := false } : MoveEvaluation)
      let r := runEvaluations g fail (evals0.enum.map fun p => (p.2, p.1)) initSearchState
        max_parallel
      (aggregateEvaluations r.1, g)

/-- The evaluation batch computed inside `find_best_move_parallel` for a
state on its parallel path: initial evaluations of the sorted candidates,
run through `runEvaluations`. -/
def parallelEvals (g : GState) (fail : Nat → Bool) (pool_size : Nat) : List MoveEvaluation :=
  let sorted := sortMoves (generate_moves_optimized g Player.naught)
  let max_parallel := min (min sorted.length pool_size) 8
  let evals0 := sorted.map fun m =>
    ({ x := m.x, y := m.y, score := -WIN_SCORE - 1, priority := m.priority,
       completed := false } : MoveEvaluation)
  (runEvaluations g fail (evals0.enum.map fun p => (p.2, p.1)) initSearchState max_parallel).1

/-! ### Clock-model predicates

The wall clock of the C code is monotone; under the tick model this becomes
the following predicates, used to state the timeout theorems. -/

/-- The modelled wall clock has passed the deadline, so every later
`is_search_timed_out` check reports a timeout. -/
def Expired (g : GState) : Prop := 0 < g.move_timeout ∧ g.deadline ≤ g.ticks

/-- The sticky `search_timed_out` flag is only ever set by a timeout check
that fired, so a flagged state is an expired state. -/
def Flagged (g : GState) : Prop := g.search_timed_out = true → Expired g

/-- What every search-state transformer guarantees about the clock model:
the timeout configuration is untouched, the clock only advances, and the
flag-implies-expired invariant is preserved. -/
def ClockPres (g g' : GState) : Prop :=
  g'.move_timeout = g.move_timeout ∧ g'.deadline = g.deadline ∧ g.ticks ≤ g'.ticks
    ∧ (Flagged g → Flagged g')

end Gomoku

/-! ## Theorems -/

namespace Gomoku

/-- C1: the win check `Board::has_winner` accepts any run of length at least
five: on a 15×15 board whose only stones are six consecutive Crosses — an
overline, which the spec and the program's own rules text say must not win —
`has_winner` still reports a win, while the spec's exactly-five-run predicate
does not hold; on a plain five-run both agree. -/
theorem has_winner_accepts_overline :
    has_winner sixRunBoard 15 Player.cross = true
      ∧ specExactFiveRun sixRunBoard 15 Player.cross = false
      ∧ has_winner fiveRunBoard 15 Player.cross = true
      ∧ specExactFiveRun fiveRunBoard 15 Player.cross = true := by
  refine ⟨by decide, by decide, by decide, by decide⟩

/-- C7 counterexample: the combination bonus of `calc_combination_threat` is
not symmetric — a (Three, Four) pair scores 200000 but the same unordered
pair presented as (Four, Three) scores 0 — and the Three+BrokenThree
combination is never awarded its tabulated 10000 bonus. -/
theorem calc_combination_threat_order_dependent :
    calc_combination_threat ThreatType.three ThreatType.four = 200000
      ∧ calc_combination_threat ThreatType.four ThreatType.three = 0
      ∧ calc_combination_threat ThreatType.three ThreatType.threeBroken = 0
      ∧ calc_combination_threat ThreatType.threeBroken ThreatType.three = 0
      ∧ threat_cost ThreatType.threeAndThreeBroken = 10000 := by
  refine ⟨by decide, by decide, by decide, by decide, by decide⟩

/-- C7 as amended: for a valid position, `calc_score_at` sums the base costs
of the four directional threats through the position and adds one
combination term for each of the six pairs of distinct directions, taken in
direction order; the combination bonus is 200000 only for an ordered
(Three, Four) pair and 50000 only for a (Three, Three) pair, and no other
pair (in particular no pair involving BrokenThree) receives a bonus. -/
theorem calc_score_at_pairs (b : CBoard) (size : Nat) (player : Player) (pos : Position)
    (h : pos.is_valid size = true) :
    (calc_score_at b size player pos =
      ((threatsAt b size player pos).map threat_cost).sum
        + calc_combination_threat ((threatsAt b size player pos).getD 0 ThreatType.nothing)
            ((threatsAt b size player pos).getD 1 ThreatType.nothing)
        + calc_combination_threat ((threatsAt b size player pos).getD 0 ThreatType.nothing)
            ((threatsAt b size player pos).getD 2 ThreatType.nothing)
        + calc_combination_threat ((threatsAt b size player pos).getD 0 ThreatType.nothing)
            ((threatsAt b size player pos).getD 3 ThreatType.nothing)
        + calc_combination_threat ((threatsAt b size player pos).getD 1 ThreatType.nothing)
            ((threatsAt b size player pos).getD 2 ThreatType.nothing)
        + calc_combination_threat ((threatsAt b size player pos).getD 1 ThreatType.nothing)
            ((threatsAt b size player pos).getD 3 ThreatType.nothing)
        + calc_combination_threat ((threatsAt b size player pos).getD 2 ThreatType.nothing)
            ((threatsAt b size player pos).getD 3 ThreatType.nothing))
      ∧ (∀ t u : ThreatType,
          calc_combination_threat t u =
            if t = ThreatType.three ∧ u = ThreatType.four then 200000
            else if t = ThreatType.three ∧ u = ThreatType.three then 50000
            else 0) := by
  constructor
  · unfold calc_score_at
    rw [if_neg (by simp [h])]
    obtain ⟨t0, t1, t2, t3, ht⟩ :
        ∃ t0 t1 t2 t3, threatsAt b size player pos = [t0, t1, t2, t3] :=
      ⟨_, _, _, _, rfl⟩
    rw [ht]
    simp [comboSum]
    ring
  · intro t u
    simp [calc_combination_threat, threat_cost]

/-- C7 witness: the amended pair decomposition at a concrete valid position
on the demo board. -/
theorem calc_score_at_pairs_witness :
    calc_score_at evalDemoBoard 15 Player.cross ⟨7, 7⟩ =
      (((threatsAt evalDemoBoard 15 Player.cross ⟨7, 7⟩).map threat_cost).sum
        + calc_combination_threat ((threatsAt evalDemoBoard 15 Player.cross ⟨7, 7⟩).getD 0 ThreatType.nothing)
            ((threatsAt evalDemoBoard 15 Player.cross ⟨7, 7⟩).getD 1 ThreatType.nothing)
        + calc_combination_threat ((threatsAt evalDemoBoard 15 Player.cross ⟨7, 7⟩).getD 0 ThreatType.nothing)
            ((threatsAt evalDemoBoard 15 Player.cross ⟨7, 7⟩).getD 2 ThreatType.nothing)
        + calc_combination_threat ((threatsAt evalDemoBoard 15 Player.cross ⟨7, 7⟩).getD 0 ThreatType.nothing)
            ((threatsAt evalDemoBoard 15 Player.cross ⟨7, 7⟩).getD 3 ThreatType.nothing)
        + calc_combination_threat ((threatsAt evalDemoBoard 15 Player.cross ⟨7, 7⟩).getD 1 ThreatType.nothing)
            ((threatsAt evalDemoBoard 15 Player.cross ⟨7, 7⟩).getD 2 ThreatType.nothing)
        + calc_combination_threat ((threatsAt evalDemoBoard 15 Player.cross ⟨7, 7⟩).getD 1 ThreatType.nothing)
            ((threatsAt evalDemoBoard 15 Player.cross ⟨7, 7⟩).getD 3 ThreatType.nothing)
        + calc_combination_threat ((threatsAt evalDemoBoard 15 Player.cross ⟨7, 7⟩).getD 2 ThreatType.nothing)
            ((threatsAt evalDemoBoard 15 Player.cross ⟨7, 7⟩).getD 3 ThreatType.nothing)) :=
  (calc_score_at_pairs evalDemoBoard 15 Player.cross ⟨7, 7⟩ (by decide)).1

/-- Pointwise antisymmetry of the per-cell evaluation term. -/
theorem evalCellTerm_antisymm (b : CBoard) (size : Nat) (pos : Position) :
    evalCellTerm b size Player.cross pos + evalCellTerm b size Player.naught pos = 0 := by
  unfold evalCellTerm other_player
  rcases h : b pos <;> simp [h]

/-- C9: for non-terminal boards (neither side has a winning line) the full
evaluation is antisymmetric between the two sides, and on terminal boards
the winning side's evaluation is +WIN while the losing side's is −WIN.  The
antisymmetry holds with no hypothesis about combination bonuses: each side's
cell scores (bonuses included) enter the two evaluations with opposite
signs. -/
theorem evaluate_position_antisymm (b : CBoard) (size : Nat) :
    (has_winner b size Player.cross = false → has_winner b size Player.naught = false →
       evaluate_position b size Player.cross + evaluate_position b size Player.naught = 0)
      ∧ (∀ player : Player, player ≠ Player.empty → has_winner b size player = true →
           has_winner b size (other_player player) = false →
           evaluate_position b size player = WIN_SCORE
             ∧ evaluate_position b size (other_player player) = LOSE_SCORE) := by
  constructor
  · intro hc hn
    unfold evaluate_position
    rw [show other_player Player.cross = Player.naught from rfl,
      show other_player Player.naught = Player.cross from rfl, hc, hn]
    simp only [Bool.false_eq_true, if_false]
    generalize allCells size = cells
    induction cells with
    | nil => simp
    | cons p l ih =>
        simp only [List.map_cons, List.sum_cons]
        have hp := evalCellTerm_antisymm b size p
        linarith
  · intro player hne hw hl
    have hpp : other_player (other_player player) = player := by
      rcases player with _ | _ | _
      · exact absurd rfl hne
      · rfl
      · rfl
    constructor
    · unfold evaluate_position
      rw [hw]
      simp
    · unfold evaluate_position
      rw [hl]
      simp only [Bool.false_eq_true, if_false]
      rw [hpp, hw]
      simp

/-- Helper: the row-major cell enumeration as a mapped product of ranges. -/
theorem allCells_eq_product (size : Nat) :
    allCells size =
      ((List.range size) ×ˢ (List.range size)).map
        fun ij => (⟨(ij.1 : Int), (ij.2 : Int)⟩ : Position) := by
  unfold allCells
  rw [show (List.range size) ×ˢ (List.range size)
        = (List.range size).flatMap fun a => (List.range size).map (Prod.mk a) from rfl,
    List.map_flatMap]
  simp only [List.map_map]
  rfl

/-- Helper: the row-major cell enumeration has no duplicates. -/
theorem allCells_nodup (size : Nat) : (allCells size).Nodup := by
  rw [allCells_eq_product]
  refine List.Nodup.map ?_ (List.Nodup.product (List.nodup_range size) (List.nodup_range size))
  intro a b h
  cases a
  cases b
  simp only [Position.mk.injEq, Nat.cast_inj] at h
  simp only [Prod.mk.injEq]
  exact h

/-- Helper: membership in the row-major cell enumeration is exactly
in-bounds membership. -/
theorem mem_allCells (size : Nat) (q : Position) :
    q ∈ allCells size ↔ 0 ≤ q.x ∧ q.x < (size : Int) ∧ 0 ≤ q.y ∧ q.y < (size : Int) := by
  rw [allCells_eq_product]
  simp only [List.mem_map, List.mem_product, List.mem_range, Prod.exists]
  constructor
  · rintro ⟨i, j, ⟨hi, hj⟩, rfl⟩
    refine ⟨?_, ?_, ?_, ?_⟩
    · show (0 : Int) ≤ (i : Int)
      exact Int.natCast_nonneg i
    · show (i : Int) < (size : Int)
      exact_mod_cast hi
    · show (0 : Int) ≤ (j : Int)
      exact Int.natCast_nonneg j
    · show (j : Int) < (size : Int)
      exact_mod_cast hj
  · rintro ⟨h1, h2, h3, h4⟩
    cases q with
    | mk qx qy =>
        have e1 : 0 ≤ qx := h1
        have e2 : qx < (size : Int) := h2
        have e3 : 0 ≤ qy := h3
        have e4 : qy < (size : Int) := h4
        refine ⟨qx.toNat, qy.toNat, ⟨by omega, by omega⟩, ?_⟩
        simp only [Position.mk.injEq]
        constructor <;> omega

/-- Helper: the hash-accumulation step commutes with XOR by a constant. -/
theorem zstep_xor (g : GState) (q : Position) (x k : Nat) :
    zstep g (x ^^^ k) q = zstep g x q ^^^ k := by
  unfold zstep
  split
  · rw [Nat.xor_assoc, Nat.xor_comm k, ← Nat.xor_assoc]
  · rfl

/-- Helper: folding the hash step over any cell list commutes with XOR by a
constant. -/
theorem foldl_zstep_xor (g : GState) (l : List Position) (x k : Nat) :
    l.foldl (zstep g) (x ^^^ k) = l.foldl (zstep g) x ^^^ k := by
  induction l generalizing x with
  | nil => rfl
  | cons q l ih =>
      simp only [List.foldl_cons, zstep_xor]
      exact ih _

/-- Helper: the hash fold only depends on the board values along the list
(and on the key schedule and board size). -/
theorem foldl_zstep_congr (g g' : GState) (l : List Position)
    (hsize : g'.board_size = g.board_size) (hkeys : g'.zobrist_keys = g.zobrist_keys)
    (hb : ∀ q ∈ l, g'.board q = g.board q) (x : Nat) :
    l.foldl (zstep g') x = l.foldl (zstep g) x := by
  induction l generalizing x with
  | nil => rfl
  | cons q l ih =>
      simp only [List.foldl_cons]
      have hq : zstep g' x q = zstep g x q := by
        unfold zstep
        rw [hb q (List.mem_cons_self q l), hsize, hkeys]
      rw [hq]
      exact ih (fun r hr => hb r (List.mem_cons_of_mem _ hr)) _

/-- Helper: filling one previously empty cell XORs that cell's key into the
hash fold. -/
theorem foldl_zstep_set (g g' : GState) (a : Position) (k : Nat)
    (hsize : g'.board_size = g.board_size) (hkeys : g'.zobrist_keys = g.zobrist_keys)
    (hold : g.board a = Player.empty) (hnew : g'.board a ≠ Player.empty)
    (hk : g'.zobrist_keys (playerIndex (g'.board a)) (a.x * (g'.board_size : Int) + a.y) = k)
    (hb : ∀ q, q ≠ a → g'.board q = g.board q) :
    ∀ l : List Position, a ∈ l → l.Nodup → ∀ x : Nat,
      l.foldl (zstep g') x = l.foldl (zstep g) x ^^^ k := by
  intro l
  induction l with
  | nil => intro h; cases h
  | cons q l ih =>
      intro hmem hnd x
      rcases List.mem_cons.mp hmem with hqa | hmem'
      · subst hqa
        simp only [List.foldl_cons]
        have h1 : zstep g' x a = x ^^^ k := by
          unfold zstep
          rw [if_pos hnew, hk]
        have h2 : zstep g x a = x := by
          unfold zstep
          rw [if_neg (by simp [hold])]
        rw [h1, h2]
        have hanotin : a ∉ l := (List.nodup_cons.mp hnd).1
        rw [foldl_zstep_congr g g' l hsize hkeys
          (fun r hr => hb r (fun he => hanotin (he ▸ hr)))]
        exact foldl_zstep_xor g l x k
      · have hqa : q ≠ a := fun he => (List.nodup_cons.mp hnd).1 (he ▸ hmem')
        simp only [List.foldl_cons]
        have hq : zstep g' x q = zstep g x q := by
          unfold zstep
          rw [hb q hqa, hsize, hkeys]
        rw [hq]
        exact ih hmem' (List.nodup_cons.mp hnd).2 _

/-- Helper: recomputing the Zobrist hash after filling one empty in-bounds
cell yields the old recomputed hash XOR the cell's key. -/
theorem compute_zobrist_hash_after_set (g g' : GState) (x y : Int) (p : Player)
    (hsize : g'.board_size = g.board_size) (hkeys : g'.zobrist_keys = g.zobrist_keys)
    (hboard : g'.board = board_set g.board x y p)
    (hv : is_valid_move g.board x y g.board_size = true) (hp : p ≠ Player.empty) :
    compute_zobrist_hash g' =
      compute_zobrist_hash g ^^^
        g.zobrist_keys (playerIndex p) (x * (g.board_size : Int) + y) := by
  simp only [is_valid_move, Bool.and_eq_true, decide_eq_true_eq] at hv
  obtain ⟨⟨⟨⟨hx0, hxs⟩, hy0⟩, hys⟩, hemp⟩ := hv
  have ha : g'.board ⟨x, y⟩ = p := by rw [hboard]; simp [board_set]
  unfold compute_zobrist_hash
  rw [hsize]
  refine foldl_zstep_set g g' ⟨x, y⟩ _ hsize hkeys hemp (by rw [ha]; exact hp)
    (by rw [ha, hkeys, hsize]) ?_ (allCells g.board_size) ?_ (allCells_nodup _) 0
  · intro q hq
    rw [hboard]
    unfold board_set
    rw [if_neg]
    intro hc
    apply hq
    cases q
    simp only [Position.mk.injEq]
    exact ⟨hc.1, hc.2⟩
  · exact (mem_allCells _ _).mpr ⟨hx0, hxs, hy0, hys⟩

/-- Helper: the fields of the game state untouched by `check_game_state`
(which only rewrites `game_state`). -/
theorem check_game_state_fields (g : GState) :
    (check_game_state g).board = g.board
      ∧ (check_game_state g).board_size = g.board_size
      ∧ (check_game_state g).zobrist_keys = g.zobrist_keys
      ∧ (check_game_state g).current_hash = g.current_hash
      ∧ (check_game_state g).stones_on_board = g.stones_on_board
      ∧ (check_game_state g).move_history = g.move_history
      ∧ (check_game_state g).enable_undo = g.enable_undo
      ∧ (check_game_state g).interesting_moves = g.interesting_moves
      ∧ (check_game_state g).ai_history_count = g.ai_history_count := by
  unfold check_game_state
  split_ifs <;> exact ⟨rfl, rfl, rfl, rfl, rfl, rfl, rfl, rfl, rfl⟩

/-- Helper: the fields of the game state untouched by `add_move_to_history`,
and its effect on the history list. -/
theorem add_move_to_history_fields (g : GState) (x y : Int) (p : Player) :
    (add_move_to_history g x y p).board = g.board
      ∧ (add_move_to_history g x y p).board_size = g.board_size
      ∧ (add_move_to_history g x y p).zobrist_keys = g.zobrist_keys
      ∧ (add_move_to_history g x y p).current_hash = g.current_hash
      ∧ (add_move_to_history g x y p).stones_on_board = g.stones_on_board
      ∧ (add_move_to_history g x y p).enable_undo = g.enable_undo
      ∧ (add_move_to_history g x y p).interesting_moves = g.interesting_moves
      ∧ (add_move_to_history g x y p).ai_history_count = g.ai_history_count
      ∧ (add_move_to_history g x y p).move_history =
          (if g.move_history.length < MAX_MOVE_HISTORY then g.move_history ++ [⟨x, y, p⟩]
           else g.move_history) := by
  unfold add_move_to_history
  split_ifs <;> exact ⟨rfl, rfl, rfl, rfl, rfl, rfl, rfl, rfl, rfl⟩

/-- Helper: the fields of `make_move` on a valid move. -/
theorem make_move_valid_fields (g : GState) (x y : Int) (p : Player)
    (hv : is_valid_move g.board x y g.board_size = true) :
    (make_move g x y p).1.board = board_set g.board x y p
      ∧ (make_move g x y p).1.board_size = g.board_size
      ∧ (make_move g x y p).1.zobrist_keys = g.zobrist_keys
      ∧ (make_move g x y p).1.current_hash = g.current_hash
      ∧ (make_move g x y p).1.stones_on_board = g.stones_on_board + 1
      ∧ (make_move g x y p).1.move_history =
          (if g.move_history.length < MAX_MOVE_HISTORY then g.move_history ++ [⟨x, y, p⟩]
           else g.move_history)
      ∧ (make_move g x y p).1.enable_undo = g.enable_undo := by
  obtain ⟨hb1, hs1, hk1, hh1, hst1, heu1, him1, hai1, hmh1⟩ := add_move_to_history_fields g x y p
  have hmm : (make_move g x y p).1 =
      (if (check_game_state (update_interesting_moves
            { add_move_to_history g x y p with
                board := board_set (add_move_to_history g x y p).board x y p } x y)).game_state
          = GameSt.running then
        { check_game_state (update_interesting_moves
            { add_move_to_history g x y p with
                board := board_set (add_move_to_history g x y p).board x y p } x y) with
            current_player :=
              other_player (check_game_state (update_interesting_moves
                { add_move_to_history g x y p with
                    board := board_set (add_move_to_history g x y p).board x y p } x y)).current_player }
      else
        check_game_state (update_interesting_moves
          { add_move_to_history g x y p with
              board := board_set (add_move_to_history g x y p).board x y p } x y)) := by
    unfold make_move
    rw [if_neg (by simp [hv])]
  rw [hmm]
  obtain ⟨hb4, hs4, hk4, hh4, hst4, hmh4, heu4, _, _⟩ :=
    check_game_state_fields (update_interesting_moves
      { add_move_to_history g x y p with
          board := board_set (add_move_to_history g x y p).board x y p } x y)
  have hfin : ∀ h : GState,
      (if h.game_state = GameSt.running then
          { h with current_player := other_player h.current_player } else h).board = h.board
        ∧ (if h.game_state = GameSt.running then
            { h with current_player := other_player h.current_player } else h).board_size
            = h.board_size
        ∧ (if h.game_state = GameSt.running then
            { h with current_player := other_player h.current_player } else h).zobrist_keys
            = h.zobrist_keys
        ∧ (if h.game_state = GameSt.running then
            { h with current_player := other_player h.current_player } else h).current_hash
            = h.current_hash
        ∧ (if h.game_state = GameSt.running then
            { h with current_player := other_player h.current_player } else h).stones_on_board
            = h.stones_on_board
        ∧ (if h.game_state = GameSt.running then
            { h with current_player := other_player h.current_player } else h).move_history
            = h.move_history
        ∧ (if h.game_state = GameSt.running then
            { h with current_player := other_player h.current_player } else h).enable_undo
            = h.enable_undo := by
    intro h
    split_ifs <;> exact ⟨rfl, rfl, rfl, rfl, rfl, rfl, rfl⟩
  obtain ⟨hfb, hfs, hfk, hfh, hfst, hfmh, hfeu⟩ := hfin _
  refine ⟨?_, ?_, ?_, ?_, ?_, ?_, ?_⟩
  · rw [hfb, hb4]
    show board_set (add_move_to_history g x y p).board x y p = board_set g.board x y p
    rw [hb1]
  · rw [hfs, hs4]
    show (add_move_to_history g x y p).board_size = g.board_size
    exact hs1
  · rw [hfk, hk4]
    show (add_move_to_history g x y p).zobrist_keys = g.zobrist_keys
    exact hk1
  · rw [hfh, hh4]
    show (add_move_to_history g x y p).current_hash = g.current_hash
    exact hh1
  · rw [hfst, hst4]
    show (add_move_to_history g x y p).stones_on_board + 1 = g.stones_on_board + 1
    rw [hst1]
  · rw [hfmh, hmh4]
    show (add_move_to_history g x y p).move_history = _
    exact hmh1
  · rw [hfeu, heu4]
    show (add_move_to_history g x y p).enable_undo = g.enable_undo
    exact heu1

/-- Helper: `make_move` on an invalid move returns the state unchanged. -/
theorem make_move_invalid (g : GState) (x y : Int) (p : Player)
    (hv : ¬ is_valid_move g.board x y g.board_size = true) :
    (make_move g x y p).1 = g := by
  unfold make_move
  rw [if_pos (by simpa using hv)]

/-- C10: `make_move` mutates the board and the caches but never XORs a
Zobrist key into the cached `current_hash` field, so the cached hash is
unchanged by the call; consequently, if the cached hash agreed with
`compute_zobrist_hash` before a valid move whose cell key is nonzero, it
disagrees with the recomputed hash afterwards. -/
theorem make_move_hash_frame (g : GState) (x y : Int) (p : Player) :
    ((make_move g x y p).1.current_hash = g.current_hash)
      ∧ (is_valid_move g.board x y g.board_size = true → p ≠ Player.empty →
          g.zobrist_keys (playerIndex p) (x * (g.board_size : Int) + y) ≠ 0 →
          g.current_hash = compute_zobrist_hash g →
          (make_move g x y p).1.current_hash ≠
            compute_zobrist_hash (make_move g x y p).1) := by
  constructor
  · by_cases hv : is_valid_move g.board x y g.board_size = true
    · exact (make_move_valid_fields g x y p hv).2.2.2.1
    · rw [make_move_invalid g x y p hv]
  · intro hv hp hk hcoh
    obtain ⟨hb, hs, hz, hh, _⟩ := make_move_valid_fields g x y p hv
    rw [hh, hcoh]
    rw [compute_zobrist_hash_after_set g (make_move g x y p).1 x y p hs hz hb hv hp]
    intro hcontra
    apply hk
    have h0 : compute_zobrist_hash g ^^^ compute_zobrist_hash g =
        compute_zobrist_hash g ^^^
          (compute_zobrist_hash g ^^^
            g.zobrist_keys (playerIndex p) (x * (g.board_size : Int) + y)) :=
      congrArg _ hcontra
    rwa [Nat.xor_self, ← Nat.xor_assoc, Nat.xor_self, Nat.zero_xor, eq_comm] at h0

set_option maxRecDepth 8000 in
/-- C10 witness: on the fresh demo state, playing Cross at (7,7) leaves the
cached hash at its old value, which no longer matches the recomputed hash. -/
theorem make_move_hash_frame_witness :
    (make_move demoState 7 7 Player.cross).1.current_hash = demoState.current_hash
      ∧ (make_move demoState 7 7 Player.cross).1.current_hash ≠
          compute_zobrist_hash (make_move demoState 7 7 Player.cross).1 :=
  ⟨(make_move_hash_frame demoState 7 7 Player.cross).1,
   (make_move_hash_frame demoState 7 7 Player.cross).2 (by decide) (by decide) (by decide)
     (by decide)⟩

/-- C2 as amended: after two successive valid moves followed by
`undo_last_moves` (undo enabled, history not full), the board contents, the
cached Zobrist hash and the move history return to their initial values, but
`stones_on_board` is left two higher than before — and, as the concrete
counterexample shows, the interesting-move set keeps its additively grown
entries, so the full round-trip invariant claimed by the spec fails. -/
theorem undo_after_two_moves (g : GState) (x1 y1 x2 y2 : Int) (p1 p2 : Player)
    (hundo : g.enable_undo = true)
    (hhist : g.move_history.length + 2 ≤ MAX_MOVE_HISTORY)
    (hv1 : is_valid_move g.board x1 y1 g.board_size = true)
    (hv2 : is_valid_move (board_set g.board x1 y1 p1) x2 y2 g.board_size = true) :
    (∀ q, (undo_last_moves (make_move (make_move g x1 y1 p1).1 x2 y2 p2).1).board q = g.board q)
      ∧ (undo_last_moves (make_move (make_move g x1 y1 p1).1 x2 y2 p2).1).current_hash
          = g.current_hash
      ∧ (undo_last_moves (make_move (make_move g x1 y1 p1).1 x2 y2 p2).1).move_history
          = g.move_history
      ∧ (undo_last_moves (make_move (make_move g x1 y1 p1).1 x2 y2 p2).1).stones_on_board
          = g.stones_on_board + 2 := by
  obtain ⟨hb1, hs1, hk1, hh1, hst1, hmh1, heu1⟩ := make_move_valid_fields g x1 y1 p1 hv1
  rw [if_pos (by omega)] at hmh1
  have hv2' : is_valid_move (make_move g x1 y1 p1).1.board x2 y2
      (make_move g x1 y1 p1).1.board_size = true := by
    rw [hb1, hs1]
    exact hv2
  obtain ⟨hb2, hs2, hk2, hh2, hst2, hmh2, heu2⟩ :=
    make_move_valid_fields (make_move g x1 y1 p1).1 x2 y2 p2 hv2'
  rw [if_pos (by rw [hmh1]; simp; omega)] at hmh2
  rw [hmh1] at hmh2
  set s2 := (make_move (make_move g x1 y1 p1).1 x2 y2 p2).1 with hs2def
  have hcu : can_undo s2 = true := by
    unfold can_undo
    rw [heu2, heu1, hundo, hmh2]
    simp
  have hp1 : popLastMove s2 =
      { s2 with
          move_history := g.move_history ++ [⟨x1, y1, p1⟩],
          board := board_set s2.board x2 y2 Player.empty } := by
    unfold popLastMove
    rw [hmh2, List.getLast?_concat, List.dropLast_concat]
  have hp2 : popLastMove (popLastMove s2) =
      { s2 with
          move_history := g.move_history,
          board := board_set (board_set s2.board x2 y2 Player.empty) x1 y1 Player.empty } := by
    rw [hp1]
    unfold popLastMove
    rw [show ({ s2 with
          move_history := g.move_history ++ [⟨x1, y1, p1⟩],
          board := board_set s2.board x2 y2 Player.empty } : GState).move_history
        = g.move_history ++ [⟨x1, y1, p1⟩] from rfl]
    rw [List.getLast?_concat, List.dropLast_concat]
  have hundo_eq : undo_last_moves s2 =
      { s2 with
          move_history := g.move_history,
          board := board_set (board_set s2.board x2 y2 Player.empty) x1 y1 Player.empty,
          ai_history_count := s2.ai_history_count - 1,
          last_ai_move_x := -1,
          last_ai_move_y := -1,
          current_player := Player.cross,
          game_state := GameSt.running } := by
    unfold undo_last_moves
    rw [if_neg (by simp [hcu]), hp2]
  rw [hundo_eq]
  refine ⟨?_, ?_, rfl, ?_⟩
  · intro q
    show board_set (board_set s2.board x2 y2 Player.empty) x1 y1 Player.empty q = g.board q
    have hbb : s2.board = board_set (board_set g.board x1 y1 p1) x2 y2 p2 := by
      rw [hb2, hb1]
    rw [hbb]
    simp only [is_valid_move, Bool.and_eq_true, decide_eq_true_eq] at hv1 hv2
    obtain ⟨-, hemp1⟩ := hv1
    obtain ⟨-, hemp2⟩ := hv2
    unfold board_set
    unfold board_set at hemp2
    by_cases h1 : q.x = x1 ∧ q.y = y1
    · rw [if_pos h1]
      have hq : q = ⟨x1, y1⟩ := by
        cases q
        simp only [Position.mk.injEq]
        exact ⟨h1.1, h1.2⟩
      rw [hq, hemp1]
    · rw [if_neg h1]
      by_cases h2 : q.x = x2 ∧ q.y = y2
      · rw [if_pos h2]
        have hq : q = ⟨x2, y2⟩ := by
          cases q
          simp only [Position.mk.injEq]
          exact ⟨h2.1, h2.2⟩
        by_cases h12 : x2 = x1 ∧ y2 = y1
        · exact absurd ⟨by rw [hq]; exact h12.1, by rw [hq]; exact h12.2⟩ h1
        · rw [if_neg (by simpa using h12)] at hemp2
          rw [hq, hemp2]
      · rw [if_neg h2, if_neg h2, if_neg h1]
  · show s2.current_hash = g.current_hash
    rw [hh2, hh1]
  · show s2.stones_on_board = g.stones_on_board + 2
    rw [hst2, hst1]

/-- C2 witness: the amended round-trip at concrete moves (7,7) and (8,8) on
the fresh demo state. -/
theorem undo_after_two_moves_witness :
    (undo_last_moves
        (make_move (make_move demoState 7 7 Player.cross).1 8 8 Player.naught).1).current_hash
        = demoState.current_hash
      ∧ (undo_last_moves
          (make_move (make_move demoState 7 7 Player.cross).1 8 8 Player.naught).1).board ⟨7, 7⟩
          = demoState.board ⟨7, 7⟩
      ∧ (undo_last_moves
          (make_move (make_move demoState 7 7 Player.cross).1 8 8 Player.naught).1).stones_on_board
          = demoState.stones_on_board + 2 := by
  obtain ⟨hb, hh, -, hst⟩ := undo_after_two_moves demoState 7 7 8 8 Player.cross Player.naught
    (by decide) (by decide) (by decide) (by decide)
  exact ⟨hh, hb ⟨7, 7⟩, hst⟩

set_option maxRecDepth 10000 in
/-- C2 counterexample: on a fresh 15×15 state, applying (7,7) and (8,8) and
then undoing the pair leaves `stones_on_board` at 2 instead of its initial
0, and leaves the interesting-move entry for (7,7) permanently deactivated,
so the claimed restoration of stone count and interesting set fails. -/
theorem undo_does_not_restore_caches :
    (undo_last_moves
        (make_move (make_move demoState 7 7 Player.cross).1 8 8 Player.naught).1).stones_on_board
        = 2
      ∧ demoState.stones_on_board = 0
      ∧ ((undo_last_moves
            (make_move (make_move demoState 7 7 Player.cross).1 8 8 Player.naught).1).interesting_moves.any
          fun m => m.x = 7 ∧ m.y = 7 ∧ m.is_active) = false
      ∧ (demoState.interesting_moves.any fun m => m.x = 7 ∧ m.y = 7 ∧ m.is_active) = true := by
  refine ⟨by decide, by decide, by decide, by decide⟩

/-- C8: the transposition-table probe returns a stored value exactly when
the indexed entry has the probe's hash, at least the probe's depth, and an
Exact flag, or a LowerBound flag with value ≥ beta, or an UpperBound flag
with value ≤ alpha; in every other case it reports not usable. -/
theorem probe_transposition_iff (g : GState) (hash : Nat) (depth alpha beta v : Int) :
    probe_transposition g hash depth alpha beta = some v ↔
      (v = (g.tt (hash % TRANSPOSITION_TABLE_SIZE)).value
        ∧ (g.tt (hash % TRANSPOSITION_TABLE_SIZE)).hash = hash
        ∧ depth ≤ (g.tt (hash % TRANSPOSITION_TABLE_SIZE)).depth
        ∧ ((g.tt (hash % TRANSPOSITION_TABLE_SIZE)).flag = TT_EXACT
            ∨ ((g.tt (hash % TRANSPOSITION_TABLE_SIZE)).flag = TT_LOWER_BOUND
                ∧ beta ≤ (g.tt (hash % TRANSPOSITION_TABLE_SIZE)).value)
            ∨ ((g.tt (hash % TRANSPOSITION_TABLE_SIZE)).flag = TT_UPPER_BOUND
                ∧ (g.tt (hash % TRANSPOSITION_TABLE_SIZE)).value ≤ alpha))) := by
  unfold probe_transposition
  set entry := g.tt (hash % TRANSPOSITION_TABLE_SIZE) with hentry
  by_cases h1 : entry.hash = hash ∧ depth ≤ entry.depth
  · rw [if_pos h1]
    by_cases h2 : entry.flag = TT_EXACT
    · rw [if_pos h2]
      simp only [Option.some_inj]
      constructor
      · intro hv
        exact ⟨hv.symm, h1.1, h1.2, Or.inl h2⟩
      · intro ⟨hv, _⟩
        exact hv.symm
    · rw [if_neg h2]
      by_cases h3 : entry.flag = TT_LOWER_BOUND ∧ beta ≤ entry.value
      · rw [if_pos h3]
        simp only [Option.some_inj]
        constructor
        · intro hv
          exact ⟨hv.symm, h1.1, h1.2, Or.inr (Or.inl h3)⟩
        · intro ⟨hv, _⟩
          exact hv.symm
      · rw [if_neg h3]
        by_cases h4 : entry.flag = TT_UPPER_BOUND ∧ entry.value ≤ alpha
        · rw [if_pos h4]
          simp only [Option.some_inj]
          constructor
          · intro hv
            exact ⟨hv.symm, h1.1, h1.2, Or.inr (Or.inr h4)⟩
          · intro ⟨hv, _⟩
            exact hv.symm
        · rw [if_neg h4]
          simp only [false_iff, reduceCtorEq]
          rintro ⟨-, -, -, hc | hc | hc⟩
          · exact h2 hc
          · exact h3 hc
          · exact h4 hc
  · rw [if_neg h1]
    simp only [false_iff, reduceCtorEq]
    rintro ⟨-, hh, hd, -⟩
    exact h1 ⟨hh, hd⟩

/-- C8 witness: a concrete probe that hits an Exact entry. -/
theorem probe_transposition_iff_witness :
    probe_transposition
      { demoState with tt := fun _ => ⟨7, 42, 5, 0, 3, 4⟩ } 7 3 0 0 = some 42 :=
  (probe_transposition_iff { demoState with tt := fun _ => ⟨7, 42, 5, 0, 3, 4⟩ }
      7 3 0 0 42).mpr ⟨rfl, rfl, by decide, Or.inl rfl⟩

/-- C9 witness: the antisymmetry at a concrete non-terminal board and the
terminal values at a concrete winning board. -/
theorem evaluate_position_antisymm_witness :
    (evaluate_position evalDemoBoard 15 Player.cross
        + evaluate_position evalDemoBoard 15 Player.naught = 0)
      ∧ evaluate_position fiveRunBoard 15 Player.cross = WIN_SCORE
      ∧ evaluate_position fiveRunBoard 15 Player.naught = LOSE_SCORE := by
  refine ⟨(evaluate_position_antisymm evalDemoBoard 15).1 (by decide) (by decide), ?_, ?_⟩
  · exact ((evaluate_position_antisymm fiveRunBoard 15).2 Player.cross (by decide)
      (by decide) (by decide)).1
  · exact ((evaluate_position_antisymm fiveRunBoard 15).2 Player.cross (by decide)
      (by decide) (by decide)).2

/-! ### Helper lemmas for the search layer -/

/-- Helper: membership in a C-style inclusive integer loop range. -/
theorem mem_intRange (lo hi x : Int) : x ∈ intRange lo hi ↔ lo ≤ x ∧ x ≤ hi := by
  unfold intRange
  simp only [List.mem_map, List.mem_range]
  constructor
  · rintro ⟨k, hk, rfl⟩
    omega
  · rintro ⟨h1, h2⟩
    exact ⟨(x - lo).toNat, by omega, by omega⟩

/-- Helper: insertion keeps the list's members plus the inserted move. -/
theorem mem_insertByPriority (m n : MoveT) (l : List MoveT) :
    n ∈ insertByPriority m l ↔ n = m ∨ n ∈ l := by
  induction l with
  | nil => simp [insertByPriority]
  | cons a l ih =>
      unfold insertByPriority
      split_ifs
      · simp [List.mem_cons]
      · simp only [List.mem_cons, ih]
        tauto

/-- Helper: the modelled move ordering is a permutation-free membership
equivalence: sorting neither adds nor removes candidates. -/
theorem mem_sortMoves (m : MoveT) (l : List MoveT) : m ∈ sortMoves l ↔ m ∈ l := by
  induction l with
  | nil => simp [sortMoves]
  | cons a l ih =>
      unfold sortMoves
      rw [mem_insertByPriority]
      simp only [List.mem_cons, ih]

/-- Helper: every generated candidate is an interesting-cache entry whose
cell is empty on the board. -/
theorem generate_moves_empty (g : GState) (p : Player) (m : MoveT)
    (h : m ∈ generate_moves_optimized g p) :
    g.board ⟨m.x, m.y⟩ = Player.empty := by
  unfold generate_moves_optimized at h
  rw [List.mem_filterMap] at h
  obtain ⟨im, _, him⟩ := h
  by_cases hc : im.is_active = true ∧ g.board ⟨im.x, im.y⟩ = Player.empty
  · rw [if_pos (by exact ⟨hc.1, hc.2⟩)] at him
    cases him
    exact hc.2
  · rw [if_neg (by intro hcc; exact hc ⟨hcc.1, hcc.2⟩)] at him
    cases him

/-- Helper: the checkmate scan only returns positions of scanned moves. -/
theorem findCheckmate_mem (g : GState) (l : List MoveT) (c : Int × Int)
    (h : findCheckmate g l = some c) : ∃ m ∈ l, c = (m.x, m.y) := by
  induction l with
  | nil => cases h
  | cons m rest ih =>
      unfold findCheckmate at h
      split_ifs at h
      · cases h
        exact ⟨m, List.mem_cons_self m rest, rfl⟩
      · obtain ⟨n, hn, hc⟩ := ih h
        exact ⟨n, List.mem_cons_of_mem _ hn, hc⟩

/-- Helper: one depth iteration only ever reports its initial depth-best or
the position of one of its candidate moves, on both exits. -/
theorem depthLoop_mem (P : Int × Int → Prop) (d : Nat) :
    ∀ (l : List MoveT) (g : GState) (s bx bby : Int),
      P (bx, bby) → (∀ m ∈ l, P (m.x, m.y)) →
      P (depthLoop d l g s bx bby).1.pos := by
  intro l
  induction l with
  | nil =>
      intro g s bx bby hb _
      exact hb
  | cons m rest ih =>
      intro g s bx bby hb hl
      have hm : P (m.x, m.y) := hl m (List.mem_cons_self m rest)
      have hrest : ∀ n ∈ rest, P (n.x, n.y) := fun n hn => hl n (List.mem_cons_of_mem _ hn)
      simp only [depthLoop]
      split_ifs
      · exact hb
      · exact hm
      · exact hm
      · exact ih _ _ _ _ hm hrest
      · exact hb
      · exact ih _ _ _ _ hb hrest

/-- Helper: the iterative-deepening loop only ever returns its incoming
best or a candidate position. -/
theorem idLoop_mem (P : Int × Int → Prop) :
    ∀ (depths : List Nat) (g : GState) (moves : List MoveT) (best : Int × Int),
      P best → (∀ m ∈ moves, P (m.x, m.y)) →
      P (idLoop depths g moves best).1 := by
  intro depths
  induction depths with
  | nil =>
      intro g moves best hb _
      exact hb
  | cons d rest ih =>
      intro g moves best hb hm
      simp only [idLoop]
      split_ifs
      · exact hb
      · have hdl := depthLoop_mem P d moves (is_search_timed_out g).2 (-WIN_SCORE - 1) best.1
          best.2 (by simpa using hb) hm
        rcases hres : depthLoop d moves (is_search_timed_out g).2 (-WIN_SCORE - 1) best.1 best.2
          with ⟨ex, g1⟩
        rw [hres] at hdl
        rcases ex with ⟨x, y⟩ | ⟨bx, bby⟩
        · simpa [DepthExit.pos] using hdl
        · simp only []
          refine ih g1 moves _ ?_ hm
          by_cases hflag : g1.search_timed_out = true
          · simp [hflag, hb]
          · simp only [Bool.not_eq_true] at hflag
            simp only [hflag]
            simpa [DepthExit.pos] using hdl

/-- Helper: a duplicate-free list with exactly one element satisfying the
predicate filters to a singleton. -/
theorem filter_length_one {α : Type} (p : α → Bool) (l : List α) (a : α)
    (hnd : l.Nodup) (ha : a ∈ l) (hp : ∀ x ∈ l, p x = true ↔ x = a) :
    (l.filter p).length = 1 := by
  induction l with
  | nil => cases ha
  | cons x l ih =>
      obtain ⟨hx, hnd'⟩ := List.nodup_cons.mp hnd
      by_cases hpx : p x = true
      · have hxa : x = a := (hp x (List.mem_cons_self x l)).mp hpx
        rw [List.filter_cons_of_pos hpx]
        have hnone : l.filter p = [] := by
          refine List.filter_eq_nil_iff.mpr ?_
          intro y hy hpy
          have : y = a := (hp y (List.mem_cons_of_mem _ hy)).mp hpy
          rw [this, ← hxa] at hy
          exact hx hy
        rw [hnone]
        rfl
      · have hxa : x ≠ a := fun he => hpx ((hp x (List.mem_cons_self x l)).mpr he)
        have ha' : a ∈ l := by
          rcases List.mem_cons.mp ha with h | h
          · exact absurd h.symm hxa
          · exact h
        rw [List.filter_cons_of_neg (by simpa using hpx)]
        exact ih hnd' ha' (fun y hy => hp y (List.mem_cons_of_mem _ hy))

/-- Helper: `findSome?` on a list whose only productive element is `a`
returns `f a`. -/
theorem findSome?_unique {α β : Type} (f : α → Option β) (l : List α) (a : α) (v : β)
    (ha : a ∈ l) (hfa : f a = some v) (hother : ∀ x ∈ l, x ≠ a → f x = none) :
    l.findSome? f = some v := by
  induction l with
  | nil => cases ha
  | cons x l ih =>
      rw [List.findSome?_cons]
      by_cases hxa : x = a
      · rw [hxa, hfa]
      · rw [hother x (List.mem_cons_self x l) hxa]
        have ha' : a ∈ l := by
          rcases List.mem_cons.mp ha with h | h
          · exact absurd h.symm hxa
          · exact h
        exact ih ha' (fun y hy => hother y (List.mem_cons_of_mem _ hy))

/-- Helper: a state with exactly one stone has `countStones` equal to 1. -/
theorem countStones_single (g : GState) (hx hy : Int)
    (hcross : g.board ⟨hx, hy⟩ ≠ Player.empty)
    (hunique : ∀ q : Position, q ≠ ⟨hx, hy⟩ → g.board q = Player.empty)
    (hx0 : 0 ≤ hx) (hx1 : hx < (g.board_size : Int))
    (hy0 : 0 ≤ hy) (hy1 : hy < (g.board_size : Int)) :
    countStones g = 1 := by
  unfold countStones
  refine filter_length_one _ _ ⟨hx, hy⟩ (allCells_nodup _) ?_ ?_
  · exact (mem_allCells _ _).mpr ⟨hx0, hx1, hy0, hy1⟩
  · intro q hq
    constructor
    · intro hpq
      by_contra hne
      have : g.board q = Player.empty := hunique q hne
      simp [this] at hpq
    · intro he
      rw [he]
      simpa using hcross

/-- Helper: the first-Cross scan finds the unique stone. -/
theorem findFirstCross_unique (g : GState) (hx hy : Int)
    (hcross : g.board ⟨hx, hy⟩ = Player.cross)
    (hunique : ∀ q : Position, q ≠ ⟨hx, hy⟩ → g.board q = Player.empty)
    (hx0 : 0 ≤ hx) (hx1 : hx < (g.board_size : Int))
    (hy0 : 0 ≤ hy) (hy1 : hy < (g.board_size : Int)) :
    findFirstCross g = some (hx, hy) := by
  unfold findFirstCross
  refine findSome?_unique _ _ (⟨hx, hy⟩ : Position) _ ?_ ?_ ?_
  · exact (mem_allCells _ _).mpr ⟨hx0, hx1, hy0, hy1⟩
  · rw [if_pos hcross]
  · intro q _ hq
    rw [if_neg]
    rw [hunique q hq]
    intro hcon
    cases hcon

/-- Helper: membership in the opening candidate list, unfolded to the loop
bounds of `find_first_ai_move`. -/
theorem mem_firstMoveCandidates (g : GState) (hx hy : Int) (c : Int × Int) :
    c ∈ firstMoveCandidates g hx hy ↔
      ∃ dist dx dy : Int, (1 ≤ dist ∧ dist ≤ 2) ∧ (-dist ≤ dx ∧ dx ≤ dist)
        ∧ (-dist ≤ dy ∧ dy ≤ dist) ∧ ¬(dx = 0 ∧ dy = 0)
        ∧ 0 ≤ hx + dx ∧ hx + dx < (g.board_size : Int)
        ∧ 0 ≤ hy + dy ∧ hy + dy < (g.board_size : Int)
        ∧ g.board ⟨hx + dx, hy + dy⟩ = Player.empty
        ∧ c = (hx + dx, hy + dy) := by
  unfold firstMoveCandidates
  simp only [List.mem_flatMap, List.mem_filterMap, mem_intRange]
  constructor
  · rintro ⟨dist, hdist, dx, hdx, dy, hdy, hf⟩
    by_cases h0 : dx = 0 ∧ dy = 0
    · rw [if_pos h0] at hf
      cases hf
    · rw [if_neg h0] at hf
      by_cases hb : 0 ≤ hx + dx ∧ hx + dx < (g.board_size : Int) ∧ 0 ≤ hy + dy
          ∧ hy + dy < (g.board_size : Int) ∧ g.board ⟨hx + dx, hy + dy⟩ = Player.empty
      · rw [if_pos hb] at hf
        cases hf
        exact ⟨dist, dx, dy, hdist, hdx, hdy, h0, hb.1, hb.2.1, hb.2.2.1, hb.2.2.2.1,
          hb.2.2.2.2, rfl⟩
      · rw [if_neg hb] at hf
        cases hf
  · rintro ⟨dist, dx, dy, hdist, hdx, hdy, h0, hb1, hb2, hb3, hb4, hemp, rfl⟩
    refine ⟨dist, hdist, dx, hdx, dy, hdy, ?_⟩
    rw [if_neg h0, if_pos ⟨hb1, hb2, hb3, hb4, hemp⟩]

/-- Helper: the opening candidate list is nonempty whenever the stone is
in bounds on a board of side at least 2. -/
theorem firstMoveCandidates_nonempty (g : GState) (hx hy : Int)
    (hunique : ∀ q : Position, q ≠ ⟨hx, hy⟩ → g.board q = Player.empty)
    (hx0 : 0 ≤ hx) (hx1 : hx < (g.board_size : Int))
    (hy0 : 0 ≤ hy) (hy1 : hy < (g.board_size : Int))
    (hsize : 2 ≤ g.board_size) :
    0 < (firstMoveCandidates g hx hy).length := by
  have hs2 : (2 : Int) ≤ (g.board_size : Int) := by exact_mod_cast hsize
  by_cases hc : hx + 1 < (g.board_size : Int)
  · have hmem : ((hx + 1, hy + 0) : Int × Int) ∈ firstMoveCandidates g hx hy := by
      rw [mem_firstMoveCandidates]
      refine ⟨1, 1, 0, ⟨by omega, by omega⟩, ⟨by omega, by omega⟩, ⟨by omega, by omega⟩,
        by omega, by omega, by omega, by omega, by omega, ?_, rfl⟩
      refine hunique _ ?_
      intro he
      have := congrArg Position.x he
      simp only at this
      omega
    exact List.length_pos.mpr (fun hnil => by rw [hnil] at hmem; cases hmem)
  · have hmem : ((hx - 1, hy + 0) : Int × Int) ∈ firstMoveCandidates g hx hy := by
      rw [mem_firstMoveCandidates]
      refine ⟨1, -1, 0, ⟨by omega, by omega⟩, ⟨by omega, by omega⟩, ⟨by omega, by omega⟩,
        by omega, by omega, by omega, by omega, by omega, ?_, ?_⟩
      · refine hunique _ ?_
        intro he
        have := congrArg Position.x he
        simp only at this
        omega
      · rw [Prod.mk.injEq]
        constructor <;> omega
    exact List.length_pos.mpr (fun hnil => by rw [hnil] at hmem; cases hmem)

/-- Helper: the properties shared by every opening candidate and hence by
the randomly selected reply: in bounds, empty, and at Chebyshev distance 1
or 2 from the stone. -/
theorem find_first_ai_move_props (g : GState) (rng : Nat → Nat) (hx hy : Int)
    (hcross : g.board ⟨hx, hy⟩ = Player.cross)
    (hunique : ∀ q : Position, q ≠ ⟨hx, hy⟩ → g.board q = Player.empty)
    (hx0 : 0 ≤ hx) (hx1 : hx < (g.board_size : Int))
    (hy0 : 0 ≤ hy) (hy1 : hy < (g.board_size : Int))
    (hsize : 2 ≤ g.board_size) :
    (0 ≤ (find_first_ai_move g rng).1
        ∧ (find_first_ai_move g rng).1 < (g.board_size : Int)
        ∧ 0 ≤ (find_first_ai_move g rng).2
        ∧ (find_first_ai_move g rng).2 < (g.board_size : Int))
      ∧ g.board ⟨(find_first_ai_move g rng).1, (find_first_ai_move g rng).2⟩ = Player.empty
      ∧ 1 ≤ max |(find_first_ai_move g rng).1 - hx| |(find_first_ai_move g rng).2 - hy|
      ∧ max |(find_first_ai_move g rng).1 - hx| |(find_first_ai_move g rng).2 - hy| ≤ 2 := by
  have hfind := findFirstCross_unique g hx hy hcross hunique hx0 hx1 hy0 hy1
  have hpos := firstMoveCandidates_nonempty g hx hy hunique hx0 hx1 hy0 hy1 hsize
  have heq : find_first_ai_move g rng =
      (firstMoveCandidates g hx hy).getD (rng 0 % (firstMoveCandidates g hx hy).length)
        (0, 0) := by
    unfold find_first_ai_move
    rw [hfind]
    simp only [hpos, if_pos]
  have hlt : rng 0 % (firstMoveCandidates g hx hy).length
      < (firstMoveCandidates g hx hy).length := Nat.mod_lt _ hpos
  have hmem : find_first_ai_move g rng ∈ firstMoveCandidates g hx hy := by
    rw [heq, List.getD_eq_getElem _ _ hlt]
    exact List.getElem_mem hlt
  rw [mem_firstMoveCandidates] at hmem
  obtain ⟨dist, dx, dy, hdist, hdx, hdy, h0, hb1, hb2, hb3, hb4, hemp, hc⟩ := hmem
  have hc1 : (find_first_ai_move g rng).1 = hx + dx := by rw [hc]
  have hc2 : (find_first_ai_move g rng).2 = hy + dy := by rw [hc]
  rw [hc1, hc2]
  refine ⟨⟨hb1, hb2, hb3, hb4⟩, hemp, ?_, ?_⟩
  · have : dx ≠ 0 ∨ dy ≠ 0 := by tauto
    rcases this with h | h
    · have h1 : 1 ≤ |hx + dx - hx| := by
        rw [show hx + dx - hx = dx by ring]
        exact Int.one_le_abs (by omega)
      exact le_trans h1 (le_max_left _ _)
    · have h1 : 1 ≤ |hy + dy - hy| := by
        rw [show hy + dy - hy = dy by ring]
        exact Int.one_le_abs (by omega)
      exact le_trans h1 (le_max_right _ _)
  · have e1 : |hx + dx - hx| ≤ 2 := by
      rw [show hx + dx - hx = dx by ring]
      exact abs_le.mpr ⟨by omega, by omega⟩
    have e2 : |hy + dy - hy| ≤ 2 := by
      rw [show hy + dy - hy = dy by ring]
      exact abs_le.mpr ⟨by omega, by omega⟩
    exact max_le e1 e2

/-- C6 as amended: when exactly one stone is on the board and it is a Cross
at an in-bounds cell, `find_best_ai_move` returns exactly the
`find_first_ai_move` random reply — minimax is never invoked on that call —
and the reply is an empty in-bounds cell at Chebyshev distance 1 or 2 from
the stone.  The selection is drawn from the candidate list in which
distance-1 cells occur twice (see the counterexample), so it is random over
that list but not uniform over the cells. -/
theorem find_best_ai_move_opening (g : GState) (rng : Nat → Nat) (hx hy : Int)
    (hcross : g.board ⟨hx, hy⟩ = Player.cross)
    (hunique : ∀ q : Position, q ≠ ⟨hx, hy⟩ → g.board q = Player.empty)
    (hx0 : 0 ≤ hx) (hx1 : hx < (g.board_size : Int))
    (hy0 : 0 ≤ hy) (hy1 : hy < (g.board_size : Int))
    (hsize : 2 ≤ g.board_size) :
    (find_best_ai_move g rng).1 = find_first_ai_move g rng
      ∧ g.board ⟨(find_best_ai_move g rng).1.1, (find_best_ai_move g rng).1.2⟩ = Player.empty
      ∧ 1 ≤ max |(find_best_ai_move g rng).1.1 - hx| |(find_best_ai_move g rng).1.2 - hy|
      ∧ max |(find_best_ai_move g rng).1.1 - hx| |(find_best_ai_move g rng).1.2 - hy| ≤ 2 := by
  have hcount : countStones { g with ticks := 0, search_timed_out := false } = 1 :=
    countStones_single _ hx hy (by show g.board ⟨hx, hy⟩ ≠ Player.empty; rw [hcross]; intro h; cases h)
      hunique hx0 hx1 hy0 hy1
  have heq : (find_best_ai_move g rng).1 = find_first_ai_move g rng := by
    simp only [find_best_ai_move]
    rw [if_pos hcount]
    rfl
  obtain ⟨hbounds, hemp, hd1, hd2⟩ :=
    find_first_ai_move_props g rng hx hy hcross hunique hx0 hx1 hy0 hy1 hsize
  rw [heq]
  exact ⟨rfl, hemp, hd1, hd2⟩

/-- C6 counterexample: with a lone Cross at (7,7) on a fresh 15×15 state,
the opening candidate list has 32 entries: the distance-1 cell (6,6) is
selected by 2 of the 32 equally likely `rand()` residues while the
distance-2 cell (5,5) is selected by exactly 1, so the reply is not a
uniformly random cell of the distance-≤2 neighbourhood. -/
theorem find_first_ai_move_not_uniform :
    (firstMoveCandidates
        { demoState with board := board_set demoState.board 7 7 Player.cross } 7 7).length = 32
      ∧ ((List.range 32).filter fun r =>
          find_first_ai_move
            { demoState with board := board_set demoState.board 7 7 Player.cross }
            (fun _ => r) = (6, 6)).length = 2
      ∧ ((List.range 32).filter fun r =>
          find_first_ai_move
            { demoState with board := board_set demoState.board 7 7 Player.cross }
            (fun _ => r) = (5, 5)).length = 1 := by
  refine ⟨by decide, by decide, by decide⟩

/-- C6 witness: the amended opening behaviour at the lone-Cross state. -/
theorem find_best_ai_move_opening_witness :
    (find_best_ai_move { demoState with board := board_set demoState.board 7 7 Player.cross }
        (fun _ => 0)).1
      = find_first_ai_move
          { demoState with board := board_set demoState.board 7 7 Player.cross } (fun _ => 0)
      ∧ ({ demoState with board := board_set demoState.board 7 7 Player.cross } : GState).board
          ⟨(find_best_ai_move
              { demoState with board := board_set demoState.board 7 7 Player.cross }
              (fun _ => 0)).1.1,
            (find_best_ai_move
              { demoState with board := board_set demoState.board 7 7 Player.cross }
              (fun _ => 0)).1.2⟩ = Player.empty
      ∧ 1 ≤ max
          |(find_best_ai_move
              { demoState with board := board_set demoState.board 7 7 Player.cross }
              (fun _ => 0)).1.1 - 7|
          |(find_best_ai_move
              { demoState with board := board_set demoState.board 7 7 Player.cross }
              (fun _ => 0)).1.2 - 7|
      ∧ max
          |(find_best_ai_move
              { demoState with board := board_set demoState.board 7 7 Player.cross }
              (fun _ => 0)).1.1 - 7|
          |(find_best_ai_move
              { demoState with board := board_set demoState.board 7 7 Player.cross }
              (fun _ => 0)).1.2 - 7| ≤ 2 :=
  find_best_ai_move_opening
    { demoState with board := board_set demoState.board 7 7 Player.cross } (fun _ => 0) 7 7
    (by decide)
    (by
      intro q hq
      show board_set demoState.board 7 7 Player.cross q = Player.empty
      unfold board_set
      rw [if_neg]
      · rfl
      · intro hcon
        apply hq
        cases q
        simp only [Position.mk.injEq]
        exact ⟨hcon.1, hcon.2⟩)
    (by decide) (by decide) (by decide) (by decide) (by decide)

/-- C3 as amended: the claim fails for arbitrary states (see the
counterexample: a lone Naught makes the opening fallback return the
occupied centre), but the returned position is in bounds and empty in both
realizable regimes: (a) the single stone is a Cross somewhere in bounds, or
(b) the stone count differs from 1 and the interesting-move cache yields at
least one candidate, all candidates lying in bounds. -/
theorem find_best_ai_move_legal (g : GState) (rng : Nat → Nat) :
    (∀ hx hy : Int,
        g.board ⟨hx, hy⟩ = Player.cross →
        (∀ q : Position, q ≠ ⟨hx, hy⟩ → g.board q = Player.empty) →
        0 ≤ hx → hx < (g.board_size : Int) → 0 ≤ hy → hy < (g.board_size : Int) →
        2 ≤ g.board_size →
        (0 ≤ (find_best_ai_move g rng).1.1
            ∧ (find_best_ai_move g rng).1.1 < (g.board_size : Int)
            ∧ 0 ≤ (find_best_ai_move g rng).1.2
            ∧ (find_best_ai_move g rng).1.2 < (g.board_size : Int))
          ∧ g.board ⟨(find_best_ai_move g rng).1.1, (find_best_ai_move g rng).1.2⟩
              = Player.empty)
      ∧ (countStones g ≠ 1 →
          generate_moves_optimized g Player.naught ≠ [] →
          (∀ m ∈ generate_moves_optimized g Player.naught,
            0 ≤ m.x ∧ m.x < (g.board_size : Int) ∧ 0 ≤ m.y ∧ m.y < (g.board_size : Int)) →
          (0 ≤ (find_best_ai_move g rng).1.1
              ∧ (find_best_ai_move g rng).1.1 < (g.board_size : Int)
              ∧ 0 ≤ (find_best_ai_move g rng).1.2
              ∧ (find_best_ai_move g rng).1.2 < (g.board_size : Int))
            ∧ g.board ⟨(find_best_ai_move g rng).1.1, (find_best_ai_move g rng).1.2⟩
                = Player.empty) := by
  constructor
  · intro hx hy hcross hunique hx0 hx1 hy0 hy1 hsize
    have hcount : countStones { g with ticks := 0, search_timed_out := false } = 1 :=
      countStones_single _ hx hy
        (by show g.board ⟨hx, hy⟩ ≠ Player.empty; rw [hcross]; intro h; cases h)
        hunique hx0 hx1 hy0 hy1
    have heq : (find_best_ai_move g rng).1 = find_first_ai_move g rng := by
      simp only [find_best_ai_move]
      rw [if_pos hcount]
      rfl
    obtain ⟨hbounds, hemp, -, -⟩ :=
      find_first_ai_move_props g rng hx hy hcross hunique hx0 hx1 hy0 hy1 hsize
    rw [heq]
    exact ⟨hbounds, hemp⟩
  · intro hcount hne hbounds
    set P : Int × Int → Prop := fun c =>
      (0 ≤ c.1 ∧ c.1 < (g.board_size : Int) ∧ 0 ≤ c.2 ∧ c.2 < (g.board_size : Int))
        ∧ g.board ⟨c.1, c.2⟩ = Player.empty with hP
    have hPmoves : ∀ m ∈ generate_moves_optimized g Player.naught, P (m.x, m.y) := by
      intro m hm
      exact ⟨hbounds m hm, generate_moves_empty g Player.naught m hm⟩
    have hgoal : P (find_best_ai_move g rng).1 := by
      simp only [find_best_ai_move]
      rw [if_neg (show ¬(countStones { g with ticks := 0, search_timed_out := false } = 1)
        from hcount)]
      rcases hcm : findCheckmate { g with ticks := 0, search_timed_out := false }
          (generate_moves_optimized { g with ticks := 0, search_timed_out := false }
            Player.naught) with - | c
      · have hsortmem : ∀ m ∈ sortMoves (generate_moves_optimized
            { g with ticks := 0, search_timed_out := false } Player.naught), P (m.x, m.y) := by
          intro m hm
          exact hPmoves m ((mem_sortMoves m _).mp hm)
        have hlen : 0 < (sortMoves (generate_moves_optimized
            { g with ticks := 0, search_timed_out := false } Player.naught)).length := by
          rcases hgen : generate_moves_optimized
              { g with ticks := 0, search_timed_out := false } Player.naught with - | ⟨m, rest⟩
          · exact absurd hgen hne
          · have hmm : m ∈ sortMoves (m :: rest) :=
              (mem_sortMoves m (m :: rest)).mpr (List.mem_cons_self m rest)
            exact List.length_pos.mpr (fun hnil => by rw [hnil] at hmm; cases hmm)
        have hbest : P (if 0 < (sortMoves (generate_moves_optimized
              { g with ticks := 0, search_timed_out := false } Player.naught)).length then
            (((sortMoves (generate_moves_optimized
                { g with ticks := 0, search_timed_out := false } Player.naught)).headD
                ⟨0, 0, 0⟩).x,
              ((sortMoves (generate_moves_optimized
                { g with ticks := 0, search_timed_out := false } Player.naught)).headD
                ⟨0, 0, 0⟩).y)
          else (-1, -1)) := by
          rw [if_pos hlen]
          rcases hs : sortMoves (generate_moves_optimized
              { g with ticks := 0, search_timed_out := false } Player.naught) with - | ⟨m, rest⟩
          · rw [hs] at hlen
            cases hlen
          · have hmem : m ∈ sortMoves (generate_moves_optimized
                { g with ticks := 0, search_timed_out := false } Player.naught) := by
              rw [hs]
              exact List.mem_cons_self m rest
            have := hsortmem m hmem
            simpa [hs] using this
        have hid := idLoop_mem P
          (List.range' 1 ({ g with ticks := 0, search_timed_out := false } : GState).max_depth)
          { g with ticks := 0, search_timed_out := false }
          (sortMoves (generate_moves_optimized
            { g with ticks := 0, search_timed_out := false } Player.naught)) _ hbest hsortmem
        rcases hrun : idLoop
            (List.range' 1 ({ g with ticks := 0, search_timed_out := false } : GState).max_depth)
            { g with ticks := 0, search_timed_out := false }
            (sortMoves (generate_moves_optimized
              { g with ticks := 0, search_timed_out := false } Player.naught))
            (if 0 < (sortMoves (generate_moves_optimized
                { g with ticks := 0, search_timed_out := false } Player.naught)).length then
              (((sortMoves (generate_moves_optimized
                  { g with ticks := 0, search_timed_out := false } Player.naught)).headD
                  ⟨0, 0, 0⟩).x,
                ((sortMoves (generate_moves_optimized
                  { g with ticks := 0, search_timed_out := false } Player.naught)).headD
                  ⟨0, 0, 0⟩).y)
            else (-1, -1)) with ⟨res, g1, flag⟩
        rw [hrun] at hid
        rcases flag with - | -
        · simpa using hid
        · simpa using hid
      · obtain ⟨m, hm, hcc⟩ := findCheckmate_mem _ _ _ hcm
        rw [hcc]
        exact hPmoves m hm
    exact hgoal

/-- C3 counterexample: on a state whose only stone is a Naught at the
centre, `find_best_ai_move` takes the single-stone branch, finds no Cross,
and falls back to the centre — returning the occupied cell (7,7). -/
theorem find_best_ai_move_returns_occupied :
    (find_best_ai_move { demoState with board := board_set demoState.board 7 7 Player.naught }
        (fun _ => 0)).1 = (7, 7)
      ∧ ({ demoState with board := board_set demoState.board 7 7 Player.naught } : GState).board
          ⟨7, 7⟩ ≠ Player.empty := by
  refine ⟨by decide, by decide⟩

/-- C3 witness: the amended legality at the lone-Cross opening state. -/
theorem find_best_ai_move_legal_witness :
    (0 ≤ (find_best_ai_move
          { demoState with board := board_set demoState.board 7 7 Player.cross }
          (fun _ => 0)).1.1
        ∧ (find_best_ai_move
            { demoState with board := board_set demoState.board 7 7 Player.cross }
            (fun _ => 0)).1.1
          < (({ demoState with board := board_set demoState.board 7 7 Player.cross }
              : GState).board_size : Int)
        ∧ 0 ≤ (find_best_ai_move
            { demoState with board := board_set demoState.board 7 7 Player.cross }
            (fun _ => 0)).1.2
        ∧ (find_best_ai_move
            { demoState with board := board_set demoState.board 7 7 Player.cross }
            (fun _ => 0)).1.2
          < (({ demoState with board := board_set demoState.board 7 7 Player.cross }
              : GState).board_size : Int))
      ∧ ({ demoState with board := board_set demoState.board 7 7 Player.cross } : GState).board
          ⟨(find_best_ai_move
              { demoState with board := board_set demoState.board 7 7 Player.cross }
              (fun _ => 0)).1.1,
            (find_best_ai_move
              { demoState with board := board_set demoState.board 7 7 Player.cross }
              (fun _ => 0)).1.2⟩ = Player.empty :=
  (find_best_ai_move_legal
      { demoState with board := board_set demoState.board 7 7 Player.cross }
      (fun _ => 0)).1 7 7
    (by decide)
    (by
      intro q hq
      show board_set demoState.board 7 7 Player.cross q = Player.empty
      unfold board_set
      rw [if_neg]
      · rfl
      · intro hcon
        apply hq
        cases q
        simp only [Position.mk.injEq]
        exact ⟨hcon.1, hcon.2⟩)
    (by decide) (by decide) (by decide) (by decide) (by decide)

/-! ### Clock-preservation lemmas -/

/-- Helper: the clock relation is reflexive. -/
theorem clockPres_refl (g : GState) : ClockPres g g :=
  ⟨rfl, rfl, le_refl _, fun h => h⟩

/-- Helper: the clock relation composes. -/
theorem clockPres_trans {g1 g2 g3 : GState} (h12 : ClockPres g1 g2) (h23 : ClockPres g2 g3) :
    ClockPres g1 g3 :=
  ⟨h23.1.trans h12.1, h23.2.1.trans h12.2.1, h12.2.2.1.trans h23.2.2.1,
   fun h => h23.2.2.2 (h12.2.2.2 h)⟩

/-- Helper: a transformer that leaves the four clock-relevant fields alone
satisfies the clock relation. -/
theorem clockPres_of_eq (g g' : GState) (h1 : g'.move_timeout = g.move_timeout)
    (h2 : g'.deadline = g.deadline) (h3 : g'.ticks = g.ticks)
    (h4 : g'.search_timed_out = g.search_timed_out) : ClockPres g g' := by
  refine ⟨h1, h2, le_of_eq h3.symm, ?_⟩
  intro hf hflag
  have := hf (h4 ▸ hflag)
  unfold Expired at this ⊢
  rw [h1, h2, h3]
  exact this

/-- Helper: a timeout check advances the clock and preserves the flag
invariant. -/
theorem clockPres_tick (g : GState) : ClockPres g (is_search_timed_out g).2 := by
  refine ⟨rfl, rfl, ?_, ?_⟩
  · show g.ticks ≤ g.ticks + 1
    omega
  · intro hf hflag
    have := hf hflag
    unfold Expired at this ⊢
    show 0 < g.move_timeout ∧ g.deadline ≤ g.ticks + 1
    omega

/-- Helper: when a timeout check fires, the state flagged immediately after
it satisfies the flag invariant and the clock relation. -/
theorem clockPres_timeout_set (g : GState) (h : (is_search_timed_out g).1 = true) :
    ClockPres g { (is_search_timed_out g).2 with search_timed_out := true }
      ∧ Flagged { (is_search_timed_out g).2 with search_timed_out := true } := by
  have hexp : Expired { (is_search_timed_out g).2 with search_timed_out := true } := by
    simp only [is_search_timed_out, Bool.and_eq_true, decide_eq_true_eq] at h
    unfold Expired
    show 0 < g.move_timeout ∧ g.deadline ≤ g.ticks + 1
    omega
  refine ⟨⟨rfl, rfl, ?_, fun _ _ => hexp⟩, fun _ => hexp⟩
  show g.ticks ≤ g.ticks + 1
  omega

/-- Helper: an expired clock makes every later timeout check fire. -/
theorem expired_check (g : GState) (h : Expired g) : (is_search_timed_out g).1 = true := by
  obtain ⟨h1, h2⟩ := h
  simp only [is_search_timed_out, Bool.and_eq_true, decide_eq_true_eq]
  exact ⟨h1, h2⟩

/-- Helper: the transposition store leaves the clock alone. -/
theorem clockPres_store_transposition (g : GState) (hash : Nat) (value depth flag bx bby : Int) :
    ClockPres g (store_transposition g hash value depth flag bx bby) := by
  simp only [store_transposition]
  split_ifs <;> exact clockPres_of_eq _ _ rfl rfl rfl rfl

/-- Helper: the cached winner lookup leaves the clock alone. -/
theorem clockPres_get_cached_winner (g : GState) (p : Player) :
    ClockPres g (get_cached_winner g p).2 := by
  simp only [get_cached_winner]
  split_ifs <;> exact clockPres_of_eq _ _ rfl rfl rfl rfl

/-- Helper: the killer-move store leaves the clock alone. -/
theorem clockPres_store_killer_move (g : GState) (depth : Nat) (x y : Int) :
    ClockPres g (store_killer_move g depth x y) := by
  simp only [store_killer_move]
  split_ifs <;> exact clockPres_of_eq _ _ rfl rfl rfl rfl

/-- Helper: the prefix of `minimax_with_timeout` preserves the clock
relation into either of its outcomes. -/
theorem clockPres_minimaxPre (depth : Nat) (g : GState) (alpha beta : Int) (ai : Player)
    (lx ly : Int) : ClockPres g (preState (minimaxPre depth g alpha beta ai lx ly)) := by
  simp only [minimaxPre]
  by_cases ht : (is_search_timed_out g).1 = true
  · rw [if_pos ht]
    exact (clockPres_timeout_set g ht).1
  · rw [if_neg ht]
    split
    · exact clockPres_tick g
    · split_ifs with hw1 hw2
      · exact clockPres_trans (clockPres_tick g)
          (clockPres_trans (clockPres_get_cached_winner _ ai)
            (clockPres_store_transposition _ _ _ _ _ _ _))
      · exact clockPres_trans (clockPres_tick g)
          (clockPres_trans (clockPres_get_cached_winner _ ai)
            (clockPres_trans (clockPres_get_cached_winner _ (other_player ai))
              (clockPres_store_transposition _ _ _ _ _ _ _)))
      · exact clockPres_trans (clockPres_tick g)
          (clockPres_trans (clockPres_get_cached_winner _ ai)
            (clockPres_get_cached_winner _ (other_player ai)))

/-- Helper: one loop body step preserves the clock relation, given that the
recursive call does: the board and hash updates around the recursive call do
not touch the clock fields. -/
theorem clockPres_mmStep (recur : GState → Int → Int → Int → Int → Int × GState)
    (hrec : ∀ g a b x y, ClockPres g (recur g a b x y).2)
    (current : Player) (m : MoveT) (g : GState) (alpha beta : Int) :
    ClockPres g (mmStep recur current m g alpha beta).2 :=
  hrec
    (invalidate_winner_cache
      { g with
          board := board_set g.board m.x m.y current,
          current_hash := g.current_hash ^^^
            g.zobrist_keys (playerIndex current) (m.x * (g.board_size : Int) + m.y) })
    alpha beta m.x m.y

/-- Helper: the maximizing loop preserves the clock relation. -/
theorem clockPres_mmLoopMax (recur : GState → Int → Int → Int → Int → Int × GState)
    (hrec : ∀ g a b x y, ClockPres g (recur g a b x y).2) (depth : Nat) (current : Player) :
    ∀ (l : List MoveT) (g : GState) (alpha beta me bx bby : Int),
      ClockPres g (mmLoopMax recur depth current l g alpha beta me bx bby).2 := by
  intro l
  induction l with
  | nil => intro g alpha beta me bx bby; exact clockPres_refl g
  | cons m rest ih =>
      intro g alpha beta me bx bby
      simp only [mmLoopMax]
      split_ifs with h1 h2 <;>
        first
          | exact (clockPres_timeout_set g h1).1
          | exact clockPres_trans (clockPres_tick g) (ih _ _ _ _ _ _)
          | exact clockPres_trans (clockPres_tick g)
              (clockPres_mmStep recur hrec current m _ alpha beta)
          | exact clockPres_trans
              (clockPres_trans (clockPres_tick g)
                (clockPres_mmStep recur hrec current m _ alpha beta))
              (ih _ _ _ _ _ _)

/-- Helper: the minimizing loop preserves the clock relation. -/
theorem clockPres_mmLoopMin (recur : GState → Int → Int → Int → Int → Int × GState)
    (hrec : ∀ g a b x y, ClockPres g (recur g a b x y).2) (depth : Nat) (current : Player) :
    ∀ (l : List MoveT) (g : GState) (alpha beta me bx bby : Int),
      ClockPres g (mmLoopMin recur depth current l g alpha beta me bx bby).2 := by
  intro l
  induction l with
  | nil => intro g alpha beta me bx bby; exact clockPres_refl g
  | cons m rest ih =>
      intro g alpha beta me bx bby
      simp only [mmLoopMin]
      split_ifs with h1 h2 <;>
        first
          | exact (clockPres_timeout_set g h1).1
          | exact clockPres_trans (clockPres_tick g) (ih _ _ _ _ _ _)
          | exact clockPres_trans (clockPres_tick g)
              (clockPres_mmStep recur hrec current m _ alpha beta)
          | exact clockPres_trans
              (clockPres_trans (clockPres_tick g)
                (clockPres_mmStep recur hrec current m _ alpha beta))
              (ih _ _ _ _ _ _)

/-- Helper: the full minimax search preserves the clock relation: it never
touches the timeout configuration, only advances the clock, and only sets
the sticky flag when a check fired. -/
theorem clockPres_minimax (depth : Nat) :
    ∀ (g : GState) (alpha beta : Int) (maximizing : Bool) (ai : Player) (lx ly : Int),
      ClockPres g (minimax depth g alpha beta maximizing ai lx ly).2 := by
  induction depth with
  | zero =>
      intro g alpha beta maximizing ai lx ly
      have hc := clockPres_minimaxPre 0 g alpha beta ai lx ly
      simp only [minimax]
      split
      · rename_i r heq
        rw [heq] at hc
        exact hc
      · rename_i g' hash heq
        rw [heq] at hc
        exact clockPres_trans hc (clockPres_store_transposition _ _ _ _ _ _ _)
  | succ d ih =>
      intro g alpha beta maximizing ai lx ly
      have hc := clockPres_minimaxPre (d + 1) g alpha beta ai lx ly
      simp only [minimax]
      split
      · rename_i r heq
        rw [heq] at hc
        exact hc
      · rename_i g' hash heq
        rw [heq] at hc
        cases maximizing with
        | true =>
            simp only [reduceIte]
            split_ifs with hstones hlen
            · exact hc
            · exact hc
            · split
              · rename_i v g2 heq2
                have h := clockPres_mmLoopMax _ (fun g a b x y => ih g a b false ai x y)
                  (d + 1) ai (sortMoves (generate_moves_optimized g' ai)) g'
                  alpha beta (-WIN_SCORE - 1) (-1) (-1)
                rw [heq2] at h
                exact clockPres_trans hc h
              · rename_i v bx bby aF bF g2 heq2
                have h := clockPres_mmLoopMax _ (fun g a b x y => ih g a b false ai x y)
                  (d + 1) ai (sortMoves (generate_moves_optimized g' ai)) g'
                  alpha beta (-WIN_SCORE - 1) (-1) (-1)
                rw [heq2] at h
                refine clockPres_trans hc (clockPres_trans h ?_)
                by_cases hk : beta ≤ v ∧ bx ≠ -1
                · rw [if_pos hk]
                  exact clockPres_trans (clockPres_store_transposition _ _ _ _ _ _ _)
                    (clockPres_store_killer_move _ _ _ _)
                · rw [if_neg hk]
                  exact clockPres_store_transposition _ _ _ _ _ _ _
        | false =>
            simp only [if_neg Bool.false_ne_true]
            split_ifs with hstones hlen
            · exact hc
            · exact hc
            · split
              · rename_i v g2 heq2
                have h := clockPres_mmLoopMin _ (fun g a b x y => ih g a b true ai x y)
                  (d + 1) (other_player ai)
                  (sortMoves (generate_moves_optimized g' (other_player ai))) g'
                  alpha beta (WIN_SCORE + 1) (-1) (-1)
                rw [heq2] at h
                exact clockPres_trans hc h
              · rename_i v bx bby aF betaF g2 heq2
                have h := clockPres_mmLoopMin _ (fun g a b x y => ih g a b true ai x y)
                  (d + 1) (other_player ai)
                  (sortMoves (generate_moves_optimized g' (other_player ai))) g'
                  alpha beta (WIN_SCORE + 1) (-1) (-1)
                rw [heq2] at h
                refine clockPres_trans hc (clockPres_trans h ?_)
                by_cases hk : v ≤ alpha ∧ bx ≠ -1
                · rw [if_pos hk]
                  exact clockPres_trans (clockPres_store_transposition _ _ _ _ _ _ _)
                    (clockPres_store_killer_move _ _ _ _)
                · rw [if_neg hk]
                  exact clockPres_store_transposition _ _ _ _ _ _ _

/-- Helper: the per-move step of one iterative-deepening iteration preserves
the clock relation: the board and hash updates around the child search do
not touch the clock fields. -/
theorem clockPres_idStep (d : Nat) (m : MoveT) (g : GState) :
    ClockPres g (idStep d m g).2 :=
  clockPres_minimax (d - 1)
    { g with
        board := board_set g.board m.x m.y Player.naught,
        current_hash := g.current_hash ^^^ g.zobrist_keys 1 (m.x * (g.board_size : Int) + m.y) }
    (-WIN_SCORE - 1) (WIN_SCORE + 1) false Player.naught m.x m.y

/-- Helper: one full depth iteration of the iterative-deepening loop
preserves the clock relation. -/
theorem clockPres_depthLoop (d : Nat) :
    ∀ (l : List MoveT) (g : GState) (dbScore dbx dby : Int),
      ClockPres g (depthLoop d l g dbScore dbx dby).2 := by
  intro l
  induction l with
  | nil => intro g dbScore dbx dby; exact clockPres_refl g
  | cons m rest ih =>
      intro g dbScore dbx dby
      simp only [depthLoop]
      split_ifs with h1 <;>
        first
          | exact (clockPres_timeout_set g h1).1
          | exact clockPres_trans (clockPres_tick g) (clockPres_idStep d m _)
          | exact clockPres_trans
              (clockPres_trans (clockPres_tick g) (clockPres_idStep d m _))
              (ih _ _ _ _)

/-- Helper: once the clock is expired, the iterative-deepening loop never
changes the published best again: its very next check fires. -/
theorem expired_idLoop (rest : List Nat) (g : GState) (moves : List MoveT) (best : Int × Int)
    (h : Expired g) : (idLoop rest g moves best).1 = best := by
  cases rest with
  | nil => rfl
  | cons d rest =>
      simp only [idLoop]
      rw [if_pos (expired_check g h)]

/-- C4: when the sticky timeout flag is raised during the depth-`d`
iteration of the iterative-deepening loop of `find_best_ai_move` and that
iteration ends without an early win, the loop does not adopt the
interrupted iteration's partial depth-best: the published result stays at
the previous (deepest fully completed) depth's best, and every remaining
depth is skipped because the expired clock trips each later check. -/
theorem find_best_keeps_completed_result (g g1 : GState) (d : Nat) (rest : List Nat)
    (moves : List MoveT) (best : Int × Int) (bx bby : Int)
    (h0 : g.search_timed_out = false)
    (hloop : depthLoop d moves (is_search_timed_out g).2 (-WIN_SCORE - 1) best.1 best.2
      = (DepthExit.normal bx bby, g1))
    (hto : g1.search_timed_out = true) :
    (idLoop (d :: rest) g moves best).1 = best := by
  have hflag : Flagged g := fun hs => absurd (h0.symm.trans hs) Bool.false_ne_true
  have hc2 := clockPres_depthLoop d moves (is_search_timed_out g).2 (-WIN_SCORE - 1) best.1 best.2
  rw [hloop] at hc2
  have hcg1 : ClockPres g g1 := clockPres_trans (clockPres_tick g) hc2
  have hexp : Expired g1 := hcg1.2.2.2 hflag hto
  by_cases hck : (is_search_timed_out g).1 = true
  · simp only [idLoop]
    rw [if_pos hck]
  · simp only [idLoop]
    rw [if_neg hck]
    simp only [hloop, hto, Bool.not_true, Bool.false_eq_true, if_false]
    exact expired_idLoop rest g1 moves best hexp

/-- C4 witness: on the one-tick-budget demo state, the depth-2 iteration
times out at its first check; the loop keeps the prior best `(9, 9)`. -/
theorem find_best_keeps_completed_result_witness :
    gW4.search_timed_out = false
      ∧ depthLoop 2 [⟨7, 8, 0⟩] (is_search_timed_out gW4).2 (-WIN_SCORE - 1)
          ((9 : Int), (9 : Int)).1 ((9 : Int), (9 : Int)).2
          = (DepthExit.normal 9 9, g1W4)
      ∧ g1W4.search_timed_out = true
      ∧ (idLoop [2] gW4 [⟨7, 8, 0⟩] (9, 9)).1 = (9, 9) :=
  ⟨rfl, rfl, rfl,
   find_best_keeps_completed_result gW4 g1W4 2 [] [⟨7, 8, 0⟩] (9, 9) 9 9 rfl rfl rfl⟩

/-! ### Parallel aggregation lemmas -/

/-- Helper: the aggregation fold over a batch with no completed evaluation
leaves the accumulator untouched. -/
theorem aggFold_incomplete (evals : List MoveEvaluation) :
    ∀ acc : Int × Int × Int, (∀ ev ∈ evals, ev.completed = false) →
      evals.foldl aggStep acc = acc := by
  induction evals with
  | nil => intro acc _; rfl
  | cons e rest ih =>
      intro acc h
      have he : e.completed = false := h e (List.mem_cons_self e rest)
      have hstep : aggStep acc e = acc := by
        simp only [aggStep]
        rw [if_neg]
        intro hcon
        rw [he] at hcon
        exact Bool.false_ne_true hcon.1
      simp only [List.foldl_cons, hstep]
      exact ih acc fun ev hev => h ev (List.mem_cons_of_mem e hev)

/-- Helper: the aggregation fold either keeps its accumulator or lands on a
completed evaluation; its running score never decreases and ends at least
as high as every completed evaluation's score. -/
theorem aggFold_spec (evals : List MoveEvaluation) :
    ∀ acc : Int × Int × Int,
      (evals.foldl aggStep acc = acc
        ∨ ∃ ev ∈ evals, ev.completed = true
            ∧ evals.foldl aggStep acc = (ev.score, ev.x, ev.y))
      ∧ acc.1 ≤ (evals.foldl aggStep acc).1
      ∧ ∀ ev ∈ evals, ev.completed = true → ev.score ≤ (evals.foldl aggStep acc).1 := by
  induction evals with
  | nil =>
      intro acc
      exact ⟨Or.inl rfl, le_refl _, fun ev hev => absurd hev (List.not_mem_nil ev)⟩
  | cons e rest ih =>
      intro acc
      simp only [List.foldl_cons]
      by_cases hc : e.completed = true ∧ acc.1 < e.score
      · have hstep : aggStep acc e = (e.score, e.x, e.y) := by
          simp only [aggStep]
          rw [if_pos hc]
        rw [hstep]
        obtain ⟨h1, h2, h3⟩ := ih (e.score, e.x, e.y)
        refine ⟨?_, ?_, ?_⟩
        · rcases h1 with h1 | ⟨ev, hev, hevc, hevr⟩
          · exact Or.inr ⟨e, List.mem_cons_self e rest, hc.1, h1⟩
          · exact Or.inr ⟨ev, List.mem_cons_of_mem e hev, hevc, hevr⟩
        · exact le_of_lt (lt_of_lt_of_le hc.2 h2)
        · intro ev hev hevc
          rcases List.mem_cons.mp hev with rfl | h
          · exact h2
          · exact h3 ev h hevc
      · have hstep : aggStep acc e = acc := by
          simp only [aggStep]
          rw [if_neg hc]
        rw [hstep]
        obtain ⟨h1, h2, h3⟩ := ih acc
        refine ⟨?_, ?_, ?_⟩
        · rcases h1 with h1 | ⟨ev, hev, hevc, hevr⟩
          · exact Or.inl h1
          · exact Or.inr ⟨ev, List.mem_cons_of_mem e hev, hevc, hevr⟩
        · exact h2
        · intro ev hev hevc
          rcases List.mem_cons.mp hev with rfl | h
          · have hnlt : ¬acc.1 < ev.score := fun hlt => hc ⟨hevc, hlt⟩
            exact le_trans (not_lt.mp hnlt) h2
          · exact h3 ev h hevc

/-- Helper: with no completed evaluation the aggregation returns the
initializer's move (-1, -1): there is no fallback to any candidate. -/
theorem aggregate_incomplete (evals : List MoveEvaluation)
    (h : ∀ ev ∈ evals, ev.completed = false) : aggregateEvaluations evals = (-1, -1) := by
  simp only [aggregateEvaluations]
  rw [aggFold_incomplete evals _ h]

/-- Helper: with a completed evaluation scoring above the initializer, the
aggregation returns the move of a completed evaluation of maximal completed
score. -/
theorem aggregate_max (evals : List MoveEvaluation) (e0 : MoveEvaluation)
    (h0 : e0 ∈ evals) (hc : e0.completed = true) (hs : -WIN_SCORE - 1 < e0.score) :
    ∃ ev ∈ evals, ev.completed = true ∧ aggregateEvaluations evals = (ev.x, ev.y)
      ∧ ∀ ev' ∈ evals, ev'.completed = true → ev'.score ≤ ev.score := by
  obtain ⟨h1, h2, h3⟩ := aggFold_spec evals (-WIN_SCORE - 1, -1, -1)
  rcases h1 with h1 | ⟨ev, hev, hevc, hevr⟩
  · exfalso
    have hle := h3 e0 h0 hc
    rw [h1] at hle
    exact absurd hle (not_le.mpr hs)
  · refine ⟨ev, hev, hevc, ?_, ?_⟩
    · simp only [aggregateEvaluations]
      rw [hevr]
    · intro ev' hev' hevc'
      have hle := h3 ev' hev' hevc'
      rw [hevr] at hle
      exact hle

/-- C5 as amended: on the parallel path with at least two root candidates
the driver returns the aggregation of the task evaluations over the
unchanged state.  When no task completed, the aggregation initializer
stands and the driver returns (-1, -1): there is no fallback to the
sequential pre-pass ordering.  When a task completed with a score above
the initializer, the returned move belongs to a completed task of maximal
completed score. -/
theorem find_best_move_parallel_spec (g : GState) (rng : Nat → Nat) (pool_size : Nat)
    (fail : Nat → Bool)
    (hpath : ¬(g.stones_on_board < 2 ∨ 0 < g.move_timeout))
    (hlen : 2 ≤ (generate_moves_optimized g Player.naught).length) :
    find_best_move_parallel g rng pool_size fail
        = (aggregateEvaluations (parallelEvals g fail pool_size), g)
      ∧ ((∀ ev ∈ parallelEvals g fail pool_size, ev.completed = false) →
          (find_best_move_parallel g rng pool_size fail).1 = (-1, -1))
      ∧ (∀ e0 ∈ parallelEvals g fail pool_size, e0.completed = true →
          -WIN_SCORE - 1 < e0.score →
          ∃ ev ∈ parallelEvals g fail pool_size, ev.completed = true
            ∧ (find_best_move_parallel g rng pool_size fail).1 = (ev.x, ev.y)
            ∧ ∀ ev' ∈ parallelEvals g fail pool_size, ev'.completed = true →
                ev'.score ≤ ev.score) := by
  have h0 : ¬((generate_moves_optimized g Player.naught).length = 0) := by omega
  have h1 : ¬((generate_moves_optimized g Player.naught).length = 1) := by omega
  have hmain : find_best_move_parallel g rng pool_size fail
      = (aggregateEvaluations (parallelEvals g fail pool_size), g) := by
    simp only [find_best_move_parallel, parallelEvals]
    rw [if_neg hpath, if_neg h0, if_neg h1]
  refine ⟨hmain, ?_, ?_⟩
  · intro hall
    rw [hmain]
    exact aggregate_incomplete _ hall
  · intro e0 he0 hc hs
    obtain ⟨ev, hev, hevc, heq, hmax⟩ := aggregate_max _ e0 he0 hc hs
    refine ⟨ev, hev, hevc, ?_, hmax⟩
    rw [hmain]
    exact heq

set_option maxRecDepth 10000 in
/-- C5 witness: the amended driver equation at the concrete two-stone state
with every task failing to complete. -/
theorem find_best_move_parallel_spec_witness :
    ¬(twoStoneState.stones_on_board < 2 ∨ 0 < twoStoneState.move_timeout)
      ∧ 2 ≤ (generate_moves_optimized twoStoneState Player.naught).length
      ∧ find_best_move_parallel twoStoneState (fun _ => 0) 4 (fun _ => true)
          = (aggregateEvaluations (parallelEvals twoStoneState (fun _ => true) 4),
             twoStoneState) :=
  ⟨by decide, by decide,
   (find_best_move_parallel_spec twoStoneState (fun _ => 0) 4 (fun _ => true)
       (by decide) (by decide)).1⟩

set_option maxRecDepth 10000 in
/-- C5 counterexample: on the two-stone demo state (no per-move timeout, so
the parallel path is taken) with every task failing to complete, the driver
returns (-1, -1) — it does not fall back to the sequential pre-pass
ordering — even though root candidates exist. -/
theorem parallel_all_failed_returns_no_move :
    2 ≤ (generate_moves_optimized twoStoneState Player.naught).length
      ∧ ¬(twoStoneState.stones_on_board < 2 ∨ 0 < twoStoneState.move_timeout)
      ∧ (find_best_move_parallel twoStoneState (fun _ => 0) 4 (fun _ => true)).1
          = (-1, -1) := by
  refine ⟨by decide, by decide, by decide⟩

end Gomoku
